import Mathlib

/-!
# Models of the challenges and their properties

The first part of the file holds the definitions: a model of the Go source of
each challenge, function by function.  The second part holds the theorems.

# Challenge 8: chat server with channels

A model of `challenge-8/submissions/lucasslima/solution-template.go`.

The Go code is stateful and uses mutexes and an unbuffered channel per client.
Each Go function is written as a program in the monad `Go`, whose primitive
steps are the memory, map, mutex and channel operations the source performs,
one per source statement.  `exec` runs such a program as one goroutine on a
`World` until it returns, panics, or parks at a step that cannot proceed before
another goroutine acts.  A world holds one server, the receiver `s` of the
`ChatServer` methods, and the clients it has created.
-/

namespace Challenge8

/-! ## Data model -/

/-- The error values declared at the end of the source file. -/
inductive ChatError where
  | ErrUsernameAlreadyTaken
  | ErrRecipientNotFound
  | ErrClientDisconnected
  deriving DecidableEq

/-- A `*Client`: the index of the client object among the objects allocated so far. -/
abbrev Ptr := Nat

/-- State of an unbuffered `chan string` (made by `make(chan string)`).
`sendq` holds the messages of the goroutines parked in a send, oldest first;
`taken` counts the sends a receiver has completed so far, so that the sender
holding ticket `t` may go on exactly when `t < taken`.  A goroutine parked in a
receive is not recorded here: it is a goroutine whose next step is `chanRecv`. -/
structure Chan where
  closed : Bool
  sendq : List String
  taken : Nat
  deriving DecidableEq

/-- The struct `Client`.  The channel is created with the client and the field
is never reassigned, so its state is kept in the field.  `mutex` is true while
the mutex is locked. -/
structure Client where
  Username : String
  MessageBus : Chan
  Disconnected : Bool
  mutex : Bool
  deriving DecidableEq

/-- The struct `ChatServer`: the map `Clients`, an association list with at most
one entry per key, and `serverMu`, true while locked. -/
structure ChatServer where
  Clients : List (String × Ptr)
  serverMu : Bool
  deriving DecidableEq

/-- The memory the program works on: the server and the client objects that
`Connect` has allocated (`heap[p]` is the object a pointer `p` refers to). -/
structure World where
  srv : ChatServer
  heap : List Client
  deriving DecidableEq

/-- The two kinds of mutex in the program. -/
inductive Mu where
  | serverMu
  | client (c : Ptr)
  deriving DecidableEq

/-! ## Map operations -/

/-- Go `v, ok := m[key]`. -/
def mapGet (m : List (String × Ptr)) (key : String) : Option Ptr :=
  match m with
  | [] => none
  | (k, v) :: rest => if k = key then some v else mapGet rest key

/-- Go `delete(m, key)`. -/
def mapErase (m : List (String × Ptr)) (key : String) : List (String × Ptr) :=
  match m with
  | [] => []
  | (k, v) :: rest => if k = key then mapErase rest key else (k, v) :: mapErase rest key

/-- Go `m[key] = v`. -/
def mapPut (m : List (String × Ptr)) (key : String) (v : Ptr) : List (String × Ptr) :=
  (key, v) :: mapErase m key

/-! ## The monad of Go programs -/

/-- A Go computation returning `α`: a tree of primitive steps, each with the
rest of the computation. -/
inductive Go (α : Type) : Type where
  | ret (a : α)
  | lock (m : Mu) (k : Go α)
  | unlock (m : Mu) (k : Go α)
  | loadDisconnected (c : Ptr) (k : Bool → Go α)
  | storeDisconnected (c : Ptr) (b : Bool) (k : Go α)
  | loadUsername (c : Ptr) (k : String → Go α)
  | chanSend (c : Ptr) (message : String) (k : Go α)
  | chanSendPark (c : Ptr) (ticket : Nat) (k : Go α)
  | chanRecv (c : Ptr) (k : String → Bool → Go α)
  | chanClose (c : Ptr) (k : Go α)
  | mapLoad (key : String) (k : Option Ptr → Go α)
  | mapStore (key : String) (v : Ptr) (k : Go α)
  | mapDelete (key : String) (k : Go α)
  | newClient (username : String) (k : Ptr → Go α)

/-- Sequencing of Go computations. -/
def Go.bind {α β : Type} : Go α → (α → Go β) → Go β
  | .ret a, f => f a
  | .lock m k, f => .lock m (k.bind f)
  | .unlock m k, f => .unlock m (k.bind f)
  | .loadDisconnected c k, f => .loadDisconnected c (fun b => (k b).bind f)
  | .storeDisconnected c b k, f => .storeDisconnected c b (k.bind f)
  | .loadUsername c k, f => .loadUsername c (fun u => (k u).bind f)
  | .chanSend c msg k, f => .chanSend c msg (k.bind f)
  | .chanSendPark c t k, f => .chanSendPark c t (k.bind f)
  | .chanRecv c k, f => .chanRecv c (fun msg ok => (k msg ok).bind f)
  | .chanClose c k, f => .chanClose c (k.bind f)
  | .mapLoad key k, f => .mapLoad key (fun r => (k r).bind f)
  | .mapStore key v k, f => .mapStore key v (k.bind f)
  | .mapDelete key k, f => .mapDelete key (k.bind f)
  | .newClient u k, f => .newClient u (fun p => (k p).bind f)

instance : Monad Go where
  pure := Go.ret
  bind := Go.bind

namespace Op

/-- Go `m.Lock()`. -/
def lock (m : Mu) : Go Unit := .lock m (.ret ())
/-- Go `m.Unlock()`. -/
def unlock (m : Mu) : Go Unit := .unlock m (.ret ())
/-- Read of `c.Disconnected`. -/
def loadDisconnected (c : Ptr) : Go Bool := .loadDisconnected c .ret
/-- Go `c.Disconnected = b`. -/
def storeDisconnected (c : Ptr) (b : Bool) : Go Unit := .storeDisconnected c b (.ret ())
/-- Read of `c.Username`. -/
def loadUsername (c : Ptr) : Go String := .loadUsername c .ret
/-- Go `c.MessageBus <- message`. -/
def chanSend (c : Ptr) (message : String) : Go Unit := .chanSend c message (.ret ())
/-- Go `message, ok := <-c.MessageBus`. -/
def chanRecv (c : Ptr) : Go (String × Bool) := .chanRecv c (fun msg ok => .ret (msg, ok))
/-- Go `close(c.MessageBus)`. -/
def chanClose (c : Ptr) : Go Unit := .chanClose c (.ret ())
/-- Go `v, ok := s.Clients[key]`. -/
def mapLoad (key : String) : Go (Option Ptr) := .mapLoad key .ret
/-- Go `s.Clients[key] = v`. -/
def mapStore (key : String) (v : Ptr) : Go Unit := .mapStore key v (.ret ())
/-- Go `delete(s.Clients, key)`. -/
def mapDelete (key : String) : Go Unit := .mapDelete key (.ret ())
/-- Go `&Client{Username: username, Disconnected: false, MessageBus: make(chan string)}`. -/
def newClient (username : String) : Go Ptr := .newClient username .ret

end Op

/-! ## Running a goroutine -/

/-- What happened to a goroutine that ran `exec`: it returned a value, it is
parked with the computation `k` still to run, or it panicked. -/
inductive Outcome (α : Type) : Type where
  | returned (a : α) (w : World)
  | blocked (k : Go α) (w : World)
  | panicked (msg : String) (w : World)

/-- The runtime error of a dereference of a pointer that refers to no object. -/
def nilDeref : String := "invalid memory address or nil pointer dereference"

/-- Replace the object a pointer refers to. -/
def World.setClient (w : World) (c : Ptr) (cl : Client) : World :=
  { w with heap := w.heap.set c cl }

/-- Run a computation as one goroutine until it returns, parks or panics.
A pointer that refers to no object is dereferenced with a panic.  `Lock` parks
while the mutex is held.  A send on an open channel puts its message on the
queue of the channel and parks, since the channel has no buffer, until a
receive has taken the message; a receive takes the oldest queued message, or
returns the zero value with `ok = false` on a closed channel, or else parks.
`close` of a closed channel and a send on a closed channel panic. -/
def exec {α : Type} : Go α → World → Outcome α
  | .ret a, w => .returned a w
  | .lock .serverMu k, w =>
    if w.srv.serverMu then .blocked (.lock .serverMu k) w
    else exec k { w with srv := { w.srv with serverMu := true } }
  | .lock (.client c) k, w =>
    match w.heap[c]? with
    | none => .panicked nilDeref w
    | some cl =>
      if cl.mutex then .blocked (.lock (.client c) k) w
      else exec k (w.setClient c { cl with mutex := true })
  | .unlock .serverMu k, w =>
    if w.srv.serverMu then exec k { w with srv := { w.srv with serverMu := false } }
    else .panicked "sync: unlock of unlocked mutex" w
  | .unlock (.client c) k, w =>
    match w.heap[c]? with
    | none => .panicked nilDeref w
    | some cl =>
      if cl.mutex then exec k (w.setClient c { cl with mutex := false })
      else .panicked "sync: unlock of unlocked mutex" w
  | .loadDisconnected c k, w =>
    match w.heap[c]? with
    | none => .panicked nilDeref w
    | some cl => exec (k cl.Disconnected) w
  | .storeDisconnected c b k, w =>
    match w.heap[c]? with
    | none => .panicked nilDeref w
    | some cl => exec k (w.setClient c { cl with Disconnected := b })
  | .loadUsername c k, w =>
    match w.heap[c]? with
    | none => .panicked nilDeref w
    | some cl => exec (k cl.Username) w
  | .chanSend c message k, w =>
    match w.heap[c]? with
    | none => .panicked nilDeref w
    | some cl =>
      if cl.MessageBus.closed then .panicked "send on closed channel" w
      else
        .blocked (.chanSendPark c (cl.MessageBus.taken + cl.MessageBus.sendq.length) k)
          (w.setClient c
            { cl with MessageBus := { cl.MessageBus with sendq := cl.MessageBus.sendq ++ [message] } })
  | .chanSendPark c ticket k, w =>
    match w.heap[c]? with
    | none => .panicked nilDeref w
    | some cl =>
      if ticket < cl.MessageBus.taken then exec k w
      else if cl.MessageBus.closed then .panicked "send on closed channel" w
      else .blocked (.chanSendPark c ticket k) w
  | .chanRecv c k, w =>
    match w.heap[c]? with
    | none => .panicked nilDeref w
    | some cl =>
      match cl.MessageBus.sendq with
      | message :: rest =>
        exec (k message true)
          (w.setClient c
            { cl with MessageBus :=
                { cl.MessageBus with sendq := rest, taken := cl.MessageBus.taken + 1 } })
      | [] =>
        if cl.MessageBus.closed then exec (k "" false) w
        else .blocked (.chanRecv c k) w
  | .chanClose c k, w =>
    match w.heap[c]? with
    | none => .panicked nilDeref w
    | some cl =>
      if cl.MessageBus.closed then .panicked "close of closed channel" w
      else exec k (w.setClient c { cl with MessageBus := { cl.MessageBus with closed := true } })
  | .mapLoad key k, w => exec (k (mapGet w.srv.Clients key)) w
  | .mapStore key v k, w =>
    exec k { w with srv := { w.srv with Clients := mapPut w.srv.Clients key v } }
  | .mapDelete key k, w =>
    exec k { w with srv := { w.srv with Clients := mapErase w.srv.Clients key } }
  | .newClient username k, w =>
    exec (k w.heap.length)
      { w with heap := w.heap ++
          [{ Username := username,
             MessageBus := { closed := false, sendq := [], taken := 0 },
             Disconnected := false,
             mutex := false }] }

/-! ## The program -/

open Op

/-- The method `func (c *Client) Send(message string)`. -/
def Client.Send (c : Ptr) (message : String) : Go Unit := do
  if (← loadDisconnected c) then
    return
  lock (.client c)
  chanSend c message
  unlock (.client c)

/-- The method `func (c *Client) Receive() string`. -/
def Client.Receive (c : Ptr) : Go String := do
  if (← loadDisconnected c) then
    return ""
  let (message, ok) ← chanRecv c
  if !ok then
    return ""
  return message

/-- The function `func NewChatServer() *ChatServer`: a server with an empty map, in a memory
with no client objects yet. -/
def NewChatServer : World :=
  { srv := { Clients := [], serverMu := false }, heap := [] }

/-- The method `func (s *ChatServer) Connect(username string) (*Client, error)`.
The returned pair is the client pointer (none for nil) and the error (none for nil). -/
def ChatServer.Connect (username : String) : Go (Option Ptr × Option ChatError) := do
  if (← mapLoad username).isSome then
    return (none, some .ErrUsernameAlreadyTaken)
  let c ← newClient username
  mapStore username c
  return (some c, none)

/-- The method `func (s *ChatServer) Disconnect(client *Client)`. -/
def ChatServer.Disconnect (client : Ptr) : Go Unit := do
  lock .serverMu
  lock (.client client)
  mapDelete (← loadUsername client)
  storeDisconnected client true
  chanClose client
  unlock .serverMu
  unlock (.client client)

/-- The method `func (s *ChatServer) Broadcast(sender *Client, message string)`,
whose body is empty in the source. -/
def ChatServer.Broadcast (_sender : Ptr) (_message : String) : Go Unit :=
  pure ()

/-- The method `func (s *ChatServer) PrivateMessage(sender *Client, recipient string,
message string) error`; the result none is the nil error. -/
def ChatServer.PrivateMessage (sender : Ptr) (recipient : String) (message : String) :
    Go (Option ChatError) := do
  if (← loadDisconnected sender) then
    return some .ErrClientDisconnected
  match (← mapLoad recipient) with
  | some c => Client.Send c message
  | none => return some .ErrRecipientNotFound
  return none

/-! ## Runs of calls -/

/-- The world a goroutine leaves behind: the one it returned in, or the one it
is parked in (from where other goroutines go on); none after a panic, which
ends the program. -/
def Outcome.after {α : Type} : Outcome α → Option World
  | .returned _ w => some w
  | .blocked _ w => some w
  | .panicked _ _ => none

/-- A call of one of the exported methods. -/
inductive Call where
  | Connect (username : String)
  | Disconnect (client : Ptr)
  | Broadcast (sender : Ptr) (message : String)
  | PrivateMessage (sender : Ptr) (recipient : String) (message : String)
  | Send (c : Ptr) (message : String)
  | Receive (c : Ptr)

/-- The world after one call. -/
def Call.run : Call → World → Option World
  | .Connect username, w => (exec (ChatServer.Connect username) w).after
  | .Disconnect client, w => (exec (ChatServer.Disconnect client) w).after
  | .Broadcast sender message, w => (exec (ChatServer.Broadcast sender message) w).after
  | .PrivateMessage sender recipient message, w =>
    (exec (ChatServer.PrivateMessage sender recipient message) w).after
  | .Send c message, w => (exec (Client.Send c message) w).after
  | .Receive c, w => (exec (Client.Receive c) w).after

/-- The world after a sequence of calls, each made in the world the previous
one left behind. -/
def runCalls : List Call → World → Option World
  | [], w => some w
  | c :: cs, w =>
    match c.run w with
    | none => none
    | some w1 => runCalls cs w1

/-- The world of the scenarios: `Connect("alice")` then `Connect("bob")` on a
new server; alice is client 0 and bob is client 1. -/
def aliceBob : World :=
  { srv := { Clients := [("bob", 1), ("alice", 0)], serverMu := false },
    heap :=
      [{ Username := "alice", MessageBus := { closed := false, sendq := [], taken := 0 },
         Disconnected := false, mutex := false },
       { Username := "bob", MessageBus := { closed := false, sendq := [], taken := 0 },
         Disconnected := false, mutex := false }] }

/-- The scenario world after `Disconnect(alice)`: alice is out of the map, her
flag is set and her channel closed. -/
def aliceGone : World :=
  { srv := { Clients := [("bob", 1)], serverMu := false },
    heap :=
      [{ Username := "alice", MessageBus := { closed := true, sendq := [], taken := 0 },
         Disconnected := true, mutex := false },
       { Username := "bob", MessageBus := { closed := false, sendq := [], taken := 0 },
         Disconnected := false, mutex := false }] }

/-- The scenario world after bob has received one message: the world in which
the call `PrivateMessage(alice, "bob", "hi")` returns once `bob.Receive()` has
taken the message. -/
def aliceBobAfterHi : World :=
  { srv := { Clients := [("bob", 1), ("alice", 0)], serverMu := false },
    heap :=
      [{ Username := "alice", MessageBus := { closed := false, sendq := [], taken := 0 },
         Disconnected := false, mutex := false },
       { Username := "bob", MessageBus := { closed := false, sendq := [], taken := 1 },
         Disconnected := false, mutex := false }] }

/-- The world after `Connect("bob")` on a new server: bob is client 0. -/
def bobAlone : World :=
  { srv := { Clients := [("bob", 0)], serverMu := false },
    heap :=
      [{ Username := "bob", MessageBus := { closed := false, sendq := [], taken := 0 },
         Disconnected := false, mutex := false }] }

/-- The world `bobAlone` after `Connect("alice")`, which returns client 1, and
`Disconnect` of that client. -/
def bobAfterAlice : World :=
  { srv := { Clients := [("bob", 0)], serverMu := false },
    heap :=
      [{ Username := "bob", MessageBus := { closed := false, sendq := [], taken := 0 },
         Disconnected := false, mutex := false },
       { Username := "alice", MessageBus := { closed := true, sendq := [], taken := 0 },
         Disconnected := true, mutex := false }] }

/-- The invariant of the worlds that calls leave behind: a client object is the
map entry under its own name exactly when its flag is false, its channel is
closed exactly when its flag is true, and every map entry points to a client
object of that name. -/
def Inv (w : World) : Prop :=
  (∀ (p : Ptr) (cl : Client), w.heap[p]? = some cl →
    (mapGet w.srv.Clients cl.Username = some p ↔ cl.Disconnected = false) ∧
    cl.MessageBus.closed = cl.Disconnected) ∧
  (∀ (k : String) (p : Ptr), mapGet w.srv.Clients k = some p →
    ∃ cl, w.heap[p]? = some cl ∧ cl.Username = k)

/-- The client object `p` exists and its flag is true. -/
def Gone (w : World) (p : Ptr) : Prop :=
  ∃ cl, w.heap[p]? = some cl ∧ cl.Disconnected = true


/-! ## Goroutines running side by side -/

/-- What one primitive step of a computation does: the computation had
finished with a value, it moved on to `k` in a new world, it cannot move in
this world (it is parked), or it panicked. -/
inductive Step (α : Type) : Type where
  | finished (a : α)
  | moved (k : Go α) (w : World)
  | parked
  | panicked (msg : String) (w : World)

/-- One primitive step, with the same meaning of each primitive as in `exec`. -/
def step {α : Type} : Go α → World → Step α
  | .ret a, _ => .finished a
  | .lock .serverMu k, w =>
    if w.srv.serverMu then .parked
    else .moved k { w with srv := { w.srv with serverMu := true } }
  | .lock (.client c) k, w =>
    match w.heap[c]? with
    | none => .panicked nilDeref w
    | some cl =>
      if cl.mutex then .parked
      else .moved k (w.setClient c { cl with mutex := true })
  | .unlock .serverMu k, w =>
    if w.srv.serverMu then .moved k { w with srv := { w.srv with serverMu := false } }
    else .panicked "sync: unlock of unlocked mutex" w
  | .unlock (.client c) k, w =>
    match w.heap[c]? with
    | none => .panicked nilDeref w
    | some cl =>
      if cl.mutex then .moved k (w.setClient c { cl with mutex := false })
      else .panicked "sync: unlock of unlocked mutex" w
  | .loadDisconnected c k, w =>
    match w.heap[c]? with
    | none => .panicked nilDeref w
    | some cl => .moved (k cl.Disconnected) w
  | .storeDisconnected c b k, w =>
    match w.heap[c]? with
    | none => .panicked nilDeref w
    | some cl => .moved k (w.setClient c { cl with Disconnected := b })
  | .loadUsername c k, w =>
    match w.heap[c]? with
    | none => .panicked nilDeref w
    | some cl => .moved (k cl.Username) w
  | .chanSend c message k, w =>
    match w.heap[c]? with
    | none => .panicked nilDeref w
    | some cl =>
      if cl.MessageBus.closed then .panicked "send on closed channel" w
      else
        .moved (.chanSendPark c (cl.MessageBus.taken + cl.MessageBus.sendq.length) k)
          (w.setClient c
            { cl with MessageBus := { cl.MessageBus with sendq := cl.MessageBus.sendq ++ [message] } })
  | .chanSendPark c ticket k, w =>
    match w.heap[c]? with
    | none => .panicked nilDeref w
    | some cl =>
      if ticket < cl.MessageBus.taken then .moved k w
      else if cl.MessageBus.closed then .panicked "send on closed channel" w
      else .parked
  | .chanRecv c k, w =>
    match w.heap[c]? with
    | none => .panicked nilDeref w
    | some cl =>
      match cl.MessageBus.sendq with
      | message :: rest =>
        .moved (k message true)
          (w.setClient c
            { cl with MessageBus :=
                { cl.MessageBus with sendq := rest, taken := cl.MessageBus.taken + 1 } })
      | [] =>
        if cl.MessageBus.closed then .moved (k "" false) w
        else .parked
  | .chanClose c k, w =>
    match w.heap[c]? with
    | none => .panicked nilDeref w
    | some cl =>
      if cl.MessageBus.closed then .panicked "close of closed channel" w
      else .moved k (w.setClient c { cl with MessageBus := { cl.MessageBus with closed := true } })
  | .mapLoad key k, w => .moved (k (mapGet w.srv.Clients key)) w
  | .mapStore key v k, w =>
    .moved k { w with srv := { w.srv with Clients := mapPut w.srv.Clients key v } }
  | .mapDelete key k, w =>
    .moved k { w with srv := { w.srv with Clients := mapErase w.srv.Clients key } }
  | .newClient username k, w =>
    .moved (k w.heap.length)
      { w with heap := w.heap ++
          [{ Username := username,
             MessageBus := { closed := false, sendq := [], taken := 0 },
             Disconnected := false,
             mutex := false }] }

/-- A goroutine: still running the computation `k`, returned with a value, or
stopped by a panic. -/
inductive Thread (α : Type) : Type where
  | running (k : Go α)
  | returned (a : α)
  | crashed (msg : String)

/-- Goroutines that share one world. -/
structure Pool (α : Type) where
  threads : List (Thread α)
  w : World

/-- Goroutine `i` takes one step, if there is such a goroutine and it can move. -/
def Pool.step {α : Type} (p : Pool α) (i : Nat) : Pool α :=
  match p.threads[i]? with
  | some (.running k) =>
    match Challenge8.step k p.w with
    | .finished a => { p with threads := p.threads.set i (.returned a) }
    | .moved k1 w1 => { threads := p.threads.set i (.running k1), w := w1 }
    | .parked => p
    | .panicked msg w1 => { threads := p.threads.set i (.crashed msg), w := w1 }
  | _ => p

/-- The goroutines take steps in the order the schedule gives. -/
def Pool.run {α : Type} (p : Pool α) (schedule : List Nat) : Pool α :=
  schedule.foldl Pool.step p

/-- The value a goroutine returned, if it has returned. -/
def Thread.result {α : Type} : Thread α → Option α
  | .returned a => some a
  | _ => none

/-- The values the goroutines of a pool have returned, in the order of the
goroutines; none for one that has not returned. -/
def Pool.results {α : Type} (p : Pool α) : List (Option α) :=
  p.threads.map Thread.result

/-- The pool of `n` goroutines that each call `Connect(username)`. -/
def connectPool (n : Nat) (username : String) (w : World) :
    Pool (Option Ptr × Option ChatError) :=
  { threads := List.replicate n (.running (ChatServer.Connect username)), w := w }

end Challenge8

namespace Challenge21

/-! # Challenge 21: binary search

A model of `challenge-21/solution-template.go`.  A Go `int` has 64 bits; the
functions compute with indices between -1 and `len(arr)` only, where nothing
wraps around, so indices and elements are integers.  A loop or a recursion
runs on fuel: one unit per iteration of the loop, or per call. -/

/-- How a run ends: with a value, with the panic of an index out of range, or
without a result when the fuel is used up. -/
inductive Res where
  | ok (v : Int)
  | indexOutOfRange
  | outOfFuel
  deriving DecidableEq

/-- Go `arr[i]`: the element, or none when the index is out of range. -/
def index (arr : List Int) (i : Int) : Option Int :=
  if 0 ≤ i then arr[i.toNat]? else none

/-- The loop `for left <= right` of `BinarySearch`, followed by `return -1`.
Where the division is made, `right - left` is not negative, so Go's division
and this one agree. -/
def BinarySearch.loop (arr : List Int) (target : Int) : Nat → Int → Int → Res
  | 0, _, _ => .outOfFuel
  | fuel + 1, left, right =>
    if left ≤ right then
      let current := left + (right - left) / 2
      match index arr current with
      | none => .indexOutOfRange
      | some x =>
        if x = target then .ok current
        else if x < target then BinarySearch.loop arr target fuel (current + 1) right
        else BinarySearch.loop arr target fuel left (current - 1)
    else .ok (-1)

/-- The function `func BinarySearch(arr []int, target int) int`. -/
def BinarySearch (fuel : Nat) (arr : List Int) (target : Int) : Res :=
  BinarySearch.loop arr target fuel 0 (arr.length - 1)

/-- The function `func BinarySearchRecursive(arr []int, target int, left int, right int) int`. -/
def BinarySearchRecursive (arr : List Int) (target : Int) : Nat → Int → Int → Res
  | 0, _, _ => .outOfFuel
  | fuel + 1, left, right =>
    if right < left then .ok (-1)
    else
      let current := left + (right - left) / 2
      match index arr current with
      | none => .indexOutOfRange
      | some x =>
        if x < target then BinarySearchRecursive arr target fuel (current + 1) right
        else if x > target then BinarySearchRecursive arr target fuel left (current - 1)
        else .ok current

/-- The loop of `FindInsertPosition`, followed by `return current`; the last
argument is the value of the variable `current` when the iteration starts. -/
def FindInsertPosition.loop (arr : List Int) (target : Int) : Nat → Int → Int → Int → Res
  | 0, _, _, _ => .outOfFuel
  | fuel + 1, left, right, current0 =>
    if left ≤ right then
      let current := left + (right - left) / 2
      match index arr left with
      | none => .indexOutOfRange
      | some l =>
        if target ≤ l then .ok left
        else
          match index arr right with
          | none => .indexOutOfRange
          | some r =>
            if target > r then .ok (right + 1)
            else
              match index arr current with
              | none => .indexOutOfRange
              | some c =>
                if target > c then FindInsertPosition.loop arr target fuel (current + 1) right current
                else if target < c then
                  FindInsertPosition.loop arr target fuel left (current - 1) current
                else .ok current
    else .ok current0

/-- The function `func FindInsertPosition(arr []int, target int) int`. -/
def FindInsertPosition (fuel : Nat) (arr : List Int) (target : Int) : Res :=
  if arr.length = 0 then .ok 0
  else FindInsertPosition.loop arr target fuel 0 (arr.length - 1) 0

end Challenge21

namespace Challenge10

/-! # Challenge 10: shapes

A model of `challenge-10/submissions/lucasslima/solution-template.go`.  For
`SortByArea` a `float64` is taken as an exact number of an ordered field `A`
with a ceiling function (the rationals, the reals), without rounding and
without NaN.  For `LargestShape`, which only compares, a `float64` is a value of
`F64 A`: NaN, or a number of a linear order `A`. -/

/-- A value of the interface `Shape`, given by what its methods `Area` and
`Perimeter` return; `String` plays no part here. -/
structure Shape (A : Type) where
  Area : A
  Perimeter : A

/-- The struct `Rectangle`. -/
structure Rectangle (A : Type) where
  Width : A
  Height : A

/-- The method `func (r *Rectangle) Area() float64`. -/
def Rectangle.Area {A : Type} [Mul A] (r : Rectangle A) : A :=
  r.Width * r.Height

/-- The method `func (r *Rectangle) Perimeter() float64`. -/
def Rectangle.Perimeter {A : Type} [Mul A] [Add A] [OfNat A 2] (r : Rectangle A) : A :=
  r.Height * 2 + r.Width * 2

/-- A rectangle as a value of the interface `Shape`. -/
def Rectangle.toShape {A : Type} [Mul A] [Add A] [OfNat A 2] (r : Rectangle A) : Shape A :=
  { Area := r.Area, Perimeter := r.Perimeter }

/-- A `float64` as far as arithmetic without rounding and comparisons go: not a
number (NaN), or a number of the type `A`. -/
inductive F64 (A : Type) where
  | nan
  | num (x : A)
  deriving DecidableEq

/-- Go `a < b` on `float64`: false when either side is NaN. -/
def F64.lt {A : Type} [LT A] : F64 A → F64 A → Prop
  | .num x, .num y => x < y
  | _, _ => False

/-- Go `a <= b` on `float64`: false when either side is NaN. -/
def F64.le {A : Type} [LE A] : F64 A → F64 A → Prop
  | .num x, .num y => x ≤ y
  | _, _ => False

instance {A : Type} [LT A] : LT (F64 A) := ⟨F64.lt⟩

instance {A : Type} [LE A] : LE (F64 A) := ⟨F64.le⟩

instance {A : Type} [LT A] [DecidableRel (fun x y : A => x < y)] :
    DecidableRel (fun a b : F64 A => a < b)
  | .num x, .num y => inferInstanceAs (Decidable (x < y))
  | .nan, _ => isFalse (fun h => h)
  | .num _, .nan => isFalse (fun h => h)

instance {A : Type} [LE A] [DecidableRel (fun x y : A => x ≤ y)] :
    DecidableRel (fun a b : F64 A => a ≤ b)
  | .num x, .num y => inferInstanceAs (Decidable (x ≤ y))
  | .nan, _ => isFalse (fun h => h)
  | .num _, .nan => isFalse (fun h => h)

/-- Go `a * b` on `float64`, without rounding: NaN when either side is NaN. -/
instance {A : Type} [Mul A] : Mul (F64 A) :=
  ⟨fun a b => match a, b with
    | .num x, .num y => .num (x * y)
    | _, _ => .nan⟩

/-- Go `a + b` on `float64`, without rounding: NaN when either side is NaN. -/
instance {A : Type} [Add A] : Add (F64 A) :=
  ⟨fun a b => match a, b with
    | .num x, .num y => .num (x + y)
    | _, _ => .nan⟩

instance {A : Type} {n : Nat} [OfNat A n] : OfNat (F64 A) n := ⟨.num (OfNat.ofNat n)⟩

/-- The function `func NewRectangle(width, height float64) (*Rectangle, error)`;
none is the nil rectangle that comes with an error. -/
def NewRectangle {A : Type} [LE A] [DecidableRel (fun x y : A => x ≤ y)] [OfNat A 0]
    (width height : F64 A) : Option (Rectangle (F64 A)) :=
  if width ≤ 0 ∨ height ≤ 0 then none else some { Width := width, Height := height }

/-- The method `func (sc *ShapeCalculator) LargestShape(shapes []Shape) Shape`;
none is the panic of `shapes[0]` on an empty slice. -/
def LargestShape {A : Type} [LT A] [DecidableRel (fun x y : A => x < y)]
    (shapes : List (Shape (F64 A))) : Option (Shape (F64 A)) :=
  match shapes with
  | [] => none
  | s0 :: _ =>
    some (shapes.foldl (fun largest s => if largest.Area < s.Area then s else largest) s0)

/-- The comparison function that `SortByArea` builds: Go
`int(math.Ceil(s1.Area() - s2.Area()))` when `ascending`, and
`int(math.Ceil(s2.Area() - s1.Area()))` otherwise. -/
def comp {A : Type} [LinearOrderedField A] [FloorRing A] (ascending : Bool)
    (s1 s2 : Shape A) : Int :=
  if ascending then Int.ceil (s1.Area - s2.Area) else Int.ceil (s2.Area - s1.Area)

/-- The method `func (sc *ShapeCalculator) SortByArea(shapes []Shape, ascending bool) []Shape`,
with the library function `slices.SortFunc` as a parameter. -/
def SortByArea {A : Type} [LinearOrderedField A] [FloorRing A]
    (SortFunc : List (Shape A) → (Shape A → Shape A → Int) → List (Shape A))
    (shapes : List (Shape A)) (ascending : Bool) : List (Shape A) :=
  SortFunc shapes (comp ascending)

/-- The inner loop of the insertion sort, on the part of the slice before the
element `x` that moves, last element first: `x` is swapped with the element
before it as long as `cmp(x, that element) < 0`. -/
def insertBefore {E : Type} (cmp : E → E → Int) (x : E) : List E → List E
  | [] => [x]
  | y :: before => if cmp x y < 0 then y :: insertBefore cmp x before else x :: y :: before

/-- The insertion sort `insertionSortCmpFunc` of the Go standard library, which
is what `slices.SortFunc` runs on a slice of at most 12 elements:
`for i := a + 1; i < b; i++ { for j := i; j > a && cmp(data[j], data[j-1]) < 0; j-- { swap } }`.
The sorted part is kept last element first and turned round at the end. -/
def insertionSortCmpFunc {E : Type} (data : List E) (cmp : E → E → Int) : List E :=
  (data.foldl (fun sorted x => insertBefore cmp x sorted) []).reverse

/-- The rectangle of the whole-numbered width `w` and height 1 that
`NewRectangle` makes, as a shape of `float64` measures; its area is `w`. -/
def stripF (w : Int) : Shape (F64 Int) :=
  Rectangle.toShape { Width := .num w, Height := .num 1 }

/-- The rectangle of width NaN and height 1, as a shape; its area is NaN. -/
def stripNaN : Shape (F64 Int) :=
  Rectangle.toShape { Width := .nan, Height := .num 1 }

/-- The rectangle of width `w` and height 1, as a shape; its area is `w`. -/
def strip (w : ℚ) : Shape ℚ :=
  Rectangle.toShape { Width := w, Height := 1 }

end Challenge10

namespace Challenge6

/-! # Challenge 6: word frequency

A model of `challenge-6/submissions/lucasslima/solution-template.go`.  A text is
the list of its code points.  `strings.ToLower` is modelled on the ASCII
letters and leaves every other code point as it is; the classes `\w` and `\s`
of a Go regular expression are ASCII classes.  The call `print(cleanedText)`
writes to the standard error stream and has no part in the result. -/

/-- The function `func SplitCharacters(r rune) bool`. -/
def SplitCharacters (r : Char) : Bool :=
  r == ' ' || r == '\n' || r == '\t' || r == '-'

/-- The fields of the text after the code points of the current field `cur`,
kept last code point first. -/
def fieldsFrom (f : Char → Bool) : List Char → List Char → List (List Char)
  | [], cur => if cur.isEmpty then [] else [cur.reverse]
  | c :: rest, cur =>
    if f c then
      if cur.isEmpty then fieldsFrom f rest [] else cur.reverse :: fieldsFrom f rest []
    else fieldsFrom f rest (c :: cur)

/-- Go `strings.FieldsFunc(s, f)`: the maximal runs of code points that do not
satisfy `f`; there is no empty field. -/
def FieldsFunc (s : List Char) (f : Char → Bool) : List (List Char) :=
  fieldsFrom f s []

/-- The class `\w` of a Go regular expression: `[0-9A-Za-z_]`. -/
def wordClass (c : Char) : Bool :=
  c.isAlphanum || c == '_'

/-- The class `\s` of a Go regular expression: tab, newline, form feed,
carriage return, space. -/
def spaceClass (c : Char) : Bool :=
  c == '\t' || c == '\n' || c == Char.ofNat 12 || c == '\r' || c == ' '

/-- Go `re.ReplaceAll(word, "")` for the expression `[^\w\s]`: every code point
outside both classes is removed. -/
def removeOthers (word : List Char) : List Char :=
  word.filter (fun c => wordClass c || spaceClass c)

/-- Go `occurrences[word] += 1` on a map kept as a list of entries, one per
key, in the order in which the keys first came. -/
def increment : List (String × Nat) → String → List (String × Nat)
  | [], word => [(word, 1)]
  | (k, n) :: rest, word =>
    if k = word then (k, n + 1) :: rest else (k, n) :: increment rest word

/-- The function `func CountWordFrequency(text string) map[string]int`. -/
def CountWordFrequency (text : String) : List (String × Nat) :=
  let cleanedText := text.toList.map Char.toLower
  (FieldsFunc cleanedText SplitCharacters).foldl
    (fun occurrences word => increment occurrences (String.mk (removeOthers word))) []

/-- The reference count: the text is split into its maximal runs of letters
and digits, every other character separates and is ignored, and each run counts
in lowercase. -/
def referenceCount (text : String) : List (String × Nat) :=
  (FieldsFunc text.toList (fun c => !c.isAlphanum)).foldl
    (fun occurrences word => increment occurrences (String.mk (word.map Char.toLower))) []

end Challenge6

namespace Challenge4

/-! # Challenge 4: concurrent breadth-first search

A model of `challenge-4/submissions/lucasslima/solution-template.go`.  The
graph, a Go map, is a list of entries; a node that is no key has no
neighbours.  The search loop of a worker runs on fuel, one unit per iteration.
The goroutines (the caller and the workers) take their steps in the order that
a schedule gives. -/

/-- The struct `BFSPath`. -/
structure BFSPath where
  Initial : Int
  Path : List Int
  deriving DecidableEq

/-- Go `graph[u]` on the map `graph`: the slice under the key `u`, or the nil
slice when `u` is no key. -/
def neighbours (graph : List (Int × List Int)) (u : Int) : List Int :=
  match graph with
  | [] => []
  | (k, adj) :: rest => if k = u then adj else neighbours rest u

/-- The loop `for len(nodeQueue) > 0` of `SearchWorker`, returning
`visitedNodes` when it ends, and none when the fuel is used up. -/
def searchLoop (graph : List (Int × List Int)) :
    Nat → List Int → List Int → Option (List Int)
  | 0, _, _ => none
  | fuel + 1, visitedNodes, nodeQueue =>
    match nodeQueue with
    | [] => some visitedNodes
    | currentNode :: tail =>
      let visitedNodes1 := visitedNodes ++ [currentNode]
      let nextNodes := (neighbours graph currentNode).filter
        (fun n => !nodeQueue.contains n && !visitedNodes1.contains n)
      searchLoop graph fuel visitedNodes1 (tail ++ nextNodes)

/-- The body of the loop of `SearchWorker` between the receive and the send:
the search from `initialNode` and the `BFSPath` made of its result. -/
def search (graph : List (Int × List Int)) (fuel : Nat) (initialNode : Int) :
    Option BFSPath :=
  match searchLoop graph fuel [] [initialNode] with
  | none => none
  | some visitedNodes => some { Initial := initialNode, Path := visitedNodes }

/-- Where a worker goroutine is: at the receive from the query channel, at the
send of a result, in a search that does not end within the fuel, or returned
(after `wg.Done()`). -/
inductive Worker where
  | receiving
  | sending (result : BFSPath)
  | searching
  | returned
  deriving DecidableEq

/-- The state shared by the caller and the workers: the queries the caller has
not sent yet, the buffer of `queriesChan` and whether it is closed, the
workers, and the buffer of `output`. -/
structure Run where
  toSend : List Int
  queriesChan : List Int
  closed : Bool
  workers : List Worker
  output : List BFSPath
  deriving DecidableEq

/-- A goroutine of a run: the caller, or the worker of a given number. -/
inductive Actor where
  | caller
  | worker (i : Nat)
  deriving DecidableEq

/-- One step of a goroutine.  The caller sends its next query (the buffer has
room for all of them), or closes the channel when it has sent all, and then
waits in `wg.Wait()`.  A worker at the receive takes the oldest query and
searches, or returns when the channel is closed and empty, or stays blocked; a
worker at the send puts its result into the buffer of `output` (which has room
for all results) and goes back to the receive. -/
def Run.step (graph : List (Int × List Int)) (fuel : Nat) (s : Run) : Actor → Run
  | .caller =>
    match s.toSend with
    | query :: rest => { s with toSend := rest, queriesChan := s.queriesChan ++ [query] }
    | [] => { s with closed := true }
  | .worker i =>
    match s.workers[i]? with
    | some .receiving =>
      match s.queriesChan with
      | initialNode :: rest =>
        match search graph fuel initialNode with
        | some result =>
          { s with queriesChan := rest, workers := s.workers.set i (.sending result) }
        | none => { s with queriesChan := rest, workers := s.workers.set i .searching }
      | [] => if s.closed then { s with workers := s.workers.set i .returned } else s
    | some (.sending result) =>
      { s with output := s.output ++ [result], workers := s.workers.set i .receiving }
    | _ => s

/-- Go `result[key] = path` on a map kept as a list of entries, one per key. -/
def assign (result : List (Int × List Int)) (key : Int) (path : List Int) :
    List (Int × List Int) :=
  match result with
  | [] => [(key, path)]
  | (k, p) :: rest => if k = key then (k, path) :: rest else (k, p) :: assign rest key path

/-- Go `result[key]` with its `ok`. -/
def lookup (result : List (Int × List Int)) (key : Int) : Option (List Int) :=
  match result with
  | [] => none
  | (k, p) :: rest => if k = key then some p else lookup rest key

/-- The loop `for queryResult := range output` that fills the result map. -/
def collect (output : List BFSPath) : List (Int × List Int) :=
  output.foldl (fun result queryResult => assign result queryResult.Initial queryResult.Path) []

/-- The function `func ConcurrentBFSQueries(graph map[int][]int, queries []int,
numWorkers int) map[int][]int` under a schedule: the map the caller returns, or
none when under this schedule the caller is still waiting in `wg.Wait()`, that
is, when it has not closed the query channel or some worker has not returned. -/
def ConcurrentBFSQueries (graph : List (Int × List Int)) (queries : List Int)
    (numWorkers : Int) (fuel : Nat) (schedule : List Actor) :
    Option (List (Int × List Int)) :=
  let start : Run :=
    { toSend := queries, queriesChan := [], closed := false,
      workers := List.replicate numWorkers.toNat .receiving, output := [] }
  let final := schedule.foldl (Run.step graph fuel) start
  if final.closed && final.workers.all (fun w => w == .returned) then
    some (collect final.output)
  else none

/-- A path of `n` edges of the graph leads from `q` to the node. -/
inductive PathLen (graph : List (Int × List Int)) (q : Int) : Nat → Int → Prop where
  | here : PathLen graph q 0 q
  | edge {n : Nat} {u v : Int} : PathLen graph q n u → v ∈ neighbours graph u →
      PathLen graph q (n + 1) v

/-- The node `v` can be reached from `q`. -/
def Reach (graph : List (Int × List Int)) (q v : Int) : Prop :=
  ∃ n, PathLen graph q n v

/-- The shortest path from `q` to `v` has `d` edges. -/
def Dist (graph : List (Int × List Int)) (q v : Int) (d : Nat) : Prop :=
  PathLen graph q d v ∧ ∀ n, PathLen graph q n v → d ≤ n

/-- Fuel that is enough for every search in the graph: two more than the
number of entries in all the adjacency lists. -/
def enoughFuel (graph : List (Int × List Int)) : Nat :=
  (graph.map (fun e => e.2.length)).sum + 2

/-- The order of two nodes by their distance from `q`. -/
def DistLe (graph : List (Int × List Int)) (q u v : Int) : Prop :=
  ∀ du dv, Dist graph q u du → Dist graph q v dv → du ≤ dv

/-- The adjacency entries of the keys that are not yet in `visited`, counted. -/
def weight (graph : List (Int × List Int)) (visited : List Int) : Nat :=
  match graph with
  | [] => 0
  | (k, adj) :: rest =>
    if visited.contains k then weight rest visited else adj.length + weight rest visited

/-- The invariant of the search loop, on the nodes visited and the queue. -/
structure SearchInv (graph : List (Int × List Int)) (q : Int)
    (visited queue : List Int) : Prop where
  first : (visited ++ queue).head? = some q
  reach : ∀ x ∈ visited ++ queue, Reach graph q x
  sorted : (visited ++ queue).Pairwise (DistLe graph q)
  span : ∀ h ∈ queue.head?, ∀ x ∈ queue, ∀ dh dx,
    Dist graph q h dh → Dist graph q x dx → dx ≤ dh + 1
  closed : ∀ u ∈ visited, ∀ v ∈ neighbours graph u, v ∈ visited ++ queue

/-- The invariant of a run for the queries of the call: every result sent or
about to be sent is the result of the search of one of the queries, no query
is lost, the channel is closed only after all queries are sent, and a worker
has returned only when the channel was closed and empty. -/
structure RunInv (graph : List (Int × List Int)) (fuel : Nat) (queries : List Int)
    (s : Run) : Prop where
  output_good : ∀ r ∈ s.output, search graph fuel r.Initial = some r ∧ r.Initial ∈ queries
  sending_good : ∀ (i : Nat) (r : BFSPath), s.workers[i]? = some (.sending r) →
    search graph fuel r.Initial = some r ∧ r.Initial ∈ queries
  toSend_sub : ∀ q ∈ s.toSend, q ∈ queries
  chan_sub : ∀ q ∈ s.queriesChan, q ∈ queries
  covered : ∀ q ∈ queries, q ∈ s.toSend ∨ q ∈ s.queriesChan ∨
    (∃ (i : Nat) (r : BFSPath), s.workers[i]? = some (.sending r) ∧ r.Initial = q) ∨
    (∃ r ∈ s.output, r.Initial = q)
  closed_sent : s.closed = true → s.toSend = []
  returned_drained : ∀ i : Nat, s.workers[i]? = some .returned →
    s.closed = true ∧ s.queriesChan = []

/-- A schedule under which the call returns: the caller sends the `n` queries
and closes the channel, worker 0 takes them all one after the other, and then
every worker finds the channel closed and returns. -/
def oneByOne (n workers : Nat) : List Actor :=
  List.replicate (n + 1) .caller ++ List.replicate (2 * n + 1) (.worker 0) ++
    (List.range' 0 workers).map .worker

/-- A graph for the examples: 0 -> 1, 2; 1 -> 2, 3; 2 -> 3; 3 -> 4. -/
def exampleGraph : List (Int × List Int) :=
  [(0, [1, 2]), (1, [2, 3]), (2, [3]), (3, [4]), (4, [])]

end Challenge4

/-! # Theorems

## Challenge 8: chat server -/

namespace Challenge8

open Op

/-! ## Lemmas on maps and memory -/

theorem mapGet_mapErase_self (m : List (String × Ptr)) (key : String) :
    mapGet (mapErase m key) key = none := by
  induction m with
  | nil => rfl
  | cons e rest ih =>
    obtain ⟨a, v⟩ := e
    by_cases h1 : a = key
    · simp [mapErase, h1, ih]
    · simp [mapErase, mapGet, h1, ih]

theorem mapGet_mapErase_ne (m : List (String × Ptr)) (key k : String) (h : k ≠ key) :
    mapGet (mapErase m key) k = mapGet m k := by
  induction m with
  | nil => rfl
  | cons e rest ih =>
    obtain ⟨a, v⟩ := e
    by_cases h1 : a = key
    · subst h1
      simp [mapErase, mapGet, ih, Ne.symm h]
    · simp [mapErase, mapGet, h1, ih]

theorem mapGet_mapErase (m : List (String × Ptr)) (key k : String) :
    mapGet (mapErase m key) k = if k = key then none else mapGet m k := by
  by_cases h : k = key
  · subst h
    simp [mapGet_mapErase_self]
  · simp [h, mapGet_mapErase_ne m key k h]

theorem mapGet_mapPut (m : List (String × Ptr)) (key k : String) (v : Ptr) :
    mapGet (mapPut m key v) k = if k = key then some v else mapGet m k := by
  by_cases h : k = key
  · simp [mapPut, mapGet, h]
  · have h3 : ¬ key = k := fun e => h e.symm
    simp [mapPut, mapGet, h, h3, mapGet_mapErase]

theorem heap_lt {l : List Client} {c : Ptr} {cl : Client} (h : l[c]? = some cl) :
    c < l.length := by
  by_contra hge
  rw [List.getElem?_eq_none (Nat.le_of_not_lt hge)] at h
  cases h

theorem heap_set_self {l : List Client} {c : Ptr} {cl : Client} (x : Client)
    (h : l[c]? = some cl) : (l.set c x)[c]? = some x := by
  simp [List.getElem?_set, heap_lt h]

theorem heap_set_other {l : List Client} {c p : Ptr} (x : Client) (h : p ≠ c) :
    (l.set c x)[p]? = l[p]? := by
  have h2 : ¬ c = p := fun e => h e.symm
  simp [List.getElem?_set, h2]

/-- The scenario world is what the two `Connect` calls build. -/
theorem aliceBob_built :
    exec (ChatServer.Connect "alice") NewChatServer
        = .returned (some 0, none)
            { srv := { Clients := [("alice", 0)], serverMu := false },
              heap := [{ Username := "alice",
                         MessageBus := { closed := false, sendq := [], taken := 0 },
                         Disconnected := false, mutex := false }] } ∧
      exec (ChatServer.Connect "bob")
          { srv := { Clients := [("alice", 0)], serverMu := false },
            heap := [{ Username := "alice",
                       MessageBus := { closed := false, sendq := [], taken := 0 },
                       Disconnected := false, mutex := false }] }
        = .returned (some 1, none) aliceBob :=
  ⟨rfl, rfl⟩

/-! ## Connect -/

/-- C1: when `u` is a key of `Clients`, `Connect(u)` returns a nil client with
`ErrUsernameAlreadyTaken` and changes nothing; otherwise it returns no error and
a new client (a pointer that referred to no object before) with `Username = u`
and `Disconnected = false`, and afterwards the map is the old map plus the entry
`u -> that client`, every other entry, every older client and the server mutex
being as before. -/
theorem Connect_contract (w : World) (u : String) :
    ((mapGet w.srv.Clients u).isSome = true →
      exec (ChatServer.Connect u) w = .returned (none, some .ErrUsernameAlreadyTaken) w) ∧
    (mapGet w.srv.Clients u = none →
      ∃ w1 : World, exec (ChatServer.Connect u) w = .returned (some w.heap.length, none) w1 ∧
        w.heap[w.heap.length]? = none ∧
        (∃ cl, w1.heap[w.heap.length]? = some cl ∧ cl.Username = u ∧ cl.Disconnected = false) ∧
        (∀ k, mapGet w1.srv.Clients k
            = if k = u then some w.heap.length else mapGet w.srv.Clients k) ∧
        (∀ (p : Ptr) (cl : Client), w.heap[p]? = some cl → w1.heap[p]? = some cl) ∧
        w1.srv.serverMu = w.srv.serverMu) := by
  constructor
  · intro h
    simp [ChatServer.Connect, mapLoad, bind, Go.bind, exec, h, pure]
  · intro h
    refine ⟨{ srv := { w.srv with Clients := mapPut w.srv.Clients u w.heap.length },
              heap := w.heap ++
                [{ Username := u, MessageBus := { closed := false, sendq := [], taken := 0 },
                   Disconnected := false, mutex := false }] }, ?_, ?_, ?_, ?_, ?_, ?_⟩
    · simp [ChatServer.Connect, mapLoad, newClient, mapStore, bind, Go.bind, exec, h, pure]
    · simp
    · exact ⟨{ Username := u, MessageBus := { closed := false, sendq := [], taken := 0 },
               Disconnected := false, mutex := false }, by simp, rfl, rfl⟩
    · intro k
      exact mapGet_mapPut _ _ _ _
    · intro p cl hp
      simp [List.getElem?_append, heap_lt hp, hp]
    · rfl

/-- Witness for C1: on the scenario world, a second `Connect("alice")` is
refused and `Connect("carol")` yields client 2 under the key carol. -/
theorem Connect_contract_witness :
    exec (ChatServer.Connect "alice") aliceBob
        = .returned (none, some .ErrUsernameAlreadyTaken) aliceBob ∧
      ∃ w1 : World, exec (ChatServer.Connect "carol") aliceBob = .returned (some 2, none) w1 ∧
        mapGet w1.srv.Clients "carol" = some 2 := by
  refine ⟨(Connect_contract aliceBob "alice").1 rfl, ?_⟩
  obtain ⟨w1, h1, _, _, h4, _⟩ := (Connect_contract aliceBob "carol").2 rfl
  exact ⟨w1, h1, by simpa using h4 "carol"⟩

/-! ## What each method does to the world -/

/-- The world `Disconnect(c)` returns in when nothing stops it. -/
theorem Disconnect_returns (w : World) (c : Ptr) (cl : Client) (hc : w.heap[c]? = some cl)
    (hsrv : w.srv.serverMu = false) (hmu : cl.mutex = false)
    (hopen : cl.MessageBus.closed = false) :
    exec (ChatServer.Disconnect c) w = .returned ()
      { srv := { Clients := mapErase w.srv.Clients cl.Username, serverMu := false },
        heap := w.heap.set c
          { cl with Disconnected := true, mutex := false,
                    MessageBus := { cl.MessageBus with closed := true } } } := by
  have hlt := heap_lt hc
  simp [ChatServer.Disconnect, lock, unlock, loadUsername, mapDelete, storeDisconnected,
    chanClose, bind, Go.bind, exec, hsrv, hc, hmu, hopen, World.setClient, hlt]

/-- The world left behind by `Disconnect(c)`, in each of its five cases. -/
theorem Disconnect_after (w : World) (c : Ptr) :
    (exec (ChatServer.Disconnect c) w).after =
      if w.srv.serverMu then some w else
      match w.heap[c]? with
      | none => none
      | some cl =>
        if cl.mutex then some { w with srv := { w.srv with serverMu := true } }
        else if cl.MessageBus.closed then none
        else some
          { srv := { Clients := mapErase w.srv.Clients cl.Username, serverMu := false },
            heap := w.heap.set c
              { cl with Disconnected := true, mutex := false,
                        MessageBus := { cl.MessageBus with closed := true } } } := by
  by_cases hsrv : w.srv.serverMu = true
  · simp [ChatServer.Disconnect, lock, bind, Go.bind, exec, hsrv, Outcome.after]
  · cases hc : w.heap[c]? with
    | none =>
      simp [ChatServer.Disconnect, lock, bind, Go.bind, exec, hsrv, hc, Outcome.after]
    | some cl =>
      have hlt := heap_lt hc
      by_cases hmu : cl.mutex = true
      · simp [ChatServer.Disconnect, lock, bind, Go.bind, exec, hsrv, hc, hmu, Outcome.after]
      · by_cases hcl : cl.MessageBus.closed = true
        · simp [ChatServer.Disconnect, lock, unlock, loadUsername, mapDelete,
            storeDisconnected, chanClose, bind, Go.bind, exec, hsrv, hc, hmu, hcl,
            World.setClient, hlt, Outcome.after]
        · simp [ChatServer.Disconnect, lock, unlock, loadUsername, mapDelete,
            storeDisconnected, chanClose, bind, Go.bind, exec, hsrv, hc, hmu, hcl,
            World.setClient, hlt, Outcome.after]

/-- When `Disconnect(c)` returned, both mutexes were free and the channel open
at the call, and the world it returned in is the one of `Disconnect_returns`. -/
theorem Disconnect_returned {w w1 : World} {c : Ptr} {a : Unit}
    (h : exec (ChatServer.Disconnect c) w = .returned a w1) :
    ∃ cl, w.heap[c]? = some cl ∧ w.srv.serverMu = false ∧ cl.mutex = false ∧
      cl.MessageBus.closed = false ∧
      w1 = { srv := { Clients := mapErase w.srv.Clients cl.Username, serverMu := false },
             heap := w.heap.set c
               { cl with Disconnected := true, mutex := false,
                         MessageBus := { cl.MessageBus with closed := true } } } := by
  by_cases hsrv : w.srv.serverMu = true
  · simp [ChatServer.Disconnect, lock, bind, Go.bind, exec, hsrv] at h
  · cases hc : w.heap[c]? with
    | none => simp [ChatServer.Disconnect, lock, bind, Go.bind, exec, hsrv, hc] at h
    | some cl =>
      have hlt := heap_lt hc
      by_cases hmu : cl.mutex = true
      · simp [ChatServer.Disconnect, lock, bind, Go.bind, exec, hsrv, hc, hmu] at h
      · by_cases hcl : cl.MessageBus.closed = true
        · simp [ChatServer.Disconnect, lock, unlock, loadUsername, mapDelete,
            storeDisconnected, chanClose, bind, Go.bind, exec, hsrv, hc, hmu, hcl,
            World.setClient, hlt] at h
        · have hr := Disconnect_returns w c cl hc (by simpa using hsrv) (by simpa using hmu)
            (by simpa using hcl)
          rw [hr] at h
          injection h with _ h2
          exact ⟨cl, rfl, by simpa using hsrv, by simpa using hmu, by simpa using hcl, h2.symm⟩

/-- The world left behind by `c.Send(message)`. -/
theorem Send_after (w : World) (c : Ptr) (message : String) :
    (exec (Client.Send c message) w).after =
      match w.heap[c]? with
      | none => none
      | some cl =>
        if cl.Disconnected then some w
        else if cl.mutex then some w
        else if cl.MessageBus.closed then none
        else some (w.setClient c
          { cl with mutex := true,
                    MessageBus := { cl.MessageBus with sendq := cl.MessageBus.sendq ++ [message] } }) := by
  cases hc : w.heap[c]? with
  | none => simp [Client.Send, loadDisconnected, bind, Go.bind, exec, hc, Outcome.after]
  | some cl =>
    have hlt := heap_lt hc
    by_cases hd : cl.Disconnected = true
    · simp [Client.Send, loadDisconnected, bind, Go.bind, exec, hc, hd, pure, Outcome.after]
    · by_cases hmu : cl.mutex = true
      · simp [Client.Send, loadDisconnected, lock, bind, Go.bind, exec, hc, hd, hmu,
          Outcome.after]
      · by_cases hcl : cl.MessageBus.closed = true
        · simp [Client.Send, loadDisconnected, lock, chanSend, unlock, bind, Go.bind, exec, hc,
            hd, hmu, hcl, World.setClient, hlt, Outcome.after]
        · simp [Client.Send, loadDisconnected, lock, chanSend, unlock, bind, Go.bind, exec, hc,
            hd, hmu, hcl, World.setClient, hlt, Outcome.after]

/-- The world left behind by `c.Receive()`. -/
theorem Receive_after (w : World) (c : Ptr) :
    (exec (Client.Receive c) w).after =
      match w.heap[c]? with
      | none => none
      | some cl =>
        if cl.Disconnected then some w
        else
          match cl.MessageBus.sendq with
          | [] => some w
          | _ :: rest => some (w.setClient c
              { cl with MessageBus :=
                  { cl.MessageBus with sendq := rest, taken := cl.MessageBus.taken + 1 } }) := by
  cases hc : w.heap[c]? with
  | none => simp [Client.Receive, loadDisconnected, bind, Go.bind, exec, hc, Outcome.after]
  | some cl =>
    by_cases hd : cl.Disconnected = true
    · simp [Client.Receive, loadDisconnected, bind, Go.bind, exec, hc, hd, pure, Outcome.after]
    · cases hq : cl.MessageBus.sendq with
      | nil =>
        by_cases hcl : cl.MessageBus.closed = true
        · simp [Client.Receive, loadDisconnected, chanRecv, bind, Go.bind, exec, hc, hd, hq,
            hcl, pure, Outcome.after]
        · simp [Client.Receive, loadDisconnected, chanRecv, bind, Go.bind, exec, hc, hd, hq,
            hcl, pure, Outcome.after]
      | cons m rest =>
        simp [Client.Receive, loadDisconnected, chanRecv, bind, Go.bind, exec, hc, hd, hq,
          pure, Outcome.after]

/-- The world left behind by `PrivateMessage(sender, recipient, message)`. -/
theorem PrivateMessage_after (w : World) (sender : Ptr) (recipient message : String) :
    (exec (ChatServer.PrivateMessage sender recipient message) w).after =
      match w.heap[sender]? with
      | none => none
      | some scl =>
        if scl.Disconnected then some w
        else
          match mapGet w.srv.Clients recipient with
          | none => some w
          | some c => (exec (Client.Send c message) w).after := by
  cases hs : w.heap[sender]? with
  | none =>
    simp [ChatServer.PrivateMessage, loadDisconnected, bind, Go.bind, exec, hs, Outcome.after]
  | some scl =>
    by_cases hd : scl.Disconnected = true
    · simp [ChatServer.PrivateMessage, loadDisconnected, bind, Go.bind, exec, hs, hd, pure,
        Outcome.after]
    · cases hr : mapGet w.srv.Clients recipient with
      | none =>
        simp [ChatServer.PrivateMessage, loadDisconnected, mapLoad, bind, Go.bind, exec, hs,
          hd, hr, pure, Outcome.after]
      | some c =>
        cases hc : w.heap[c]? with
        | none =>
          simp [ChatServer.PrivateMessage, Client.Send, loadDisconnected, mapLoad, bind,
            Go.bind, exec, hs, hd, hr, hc, pure, Outcome.after]
        | some cl =>
          have hlt := heap_lt hc
          by_cases hd2 : cl.Disconnected = true
          · simp [ChatServer.PrivateMessage, Client.Send, loadDisconnected, mapLoad, bind,
              Go.bind, exec, hs, hd, hr, hc, hd2, pure, Outcome.after]
          · by_cases hmu : cl.mutex = true
            · simp [ChatServer.PrivateMessage, Client.Send, loadDisconnected, mapLoad, lock,
                bind, Go.bind, exec, hs, hd, hr, hc, hd2, hmu, pure, Outcome.after]
            · by_cases hcl : cl.MessageBus.closed = true
              · simp [ChatServer.PrivateMessage, Client.Send, loadDisconnected, mapLoad, lock,
                  chanSend, unlock, bind, Go.bind, exec, hs, hd, hr, hc, hd2, hmu, hcl,
                  World.setClient, hlt, pure, Outcome.after]
              · simp [ChatServer.PrivateMessage, Client.Send, loadDisconnected, mapLoad, lock,
                  chanSend, unlock, bind, Go.bind, exec, hs, hd, hr, hc, hd2, hmu, hcl,
                  World.setClient, hlt, pure, Outcome.after]

/-- The world left behind by `Connect(username)`. -/
theorem Connect_after (w : World) (username : String) :
    (exec (ChatServer.Connect username) w).after =
      match mapGet w.srv.Clients username with
      | some _ => some w
      | none => some
          { srv := { w.srv with Clients := mapPut w.srv.Clients username w.heap.length },
            heap := w.heap ++
              [{ Username := username,
                 MessageBus := { closed := false, sendq := [], taken := 0 },
                 Disconnected := false, mutex := false }] } := by
  cases h : mapGet w.srv.Clients username with
  | none =>
    simp [ChatServer.Connect, mapLoad, newClient, mapStore, bind, Go.bind, exec, h, pure,
      Outcome.after]
  | some p =>
    simp [ChatServer.Connect, mapLoad, bind, Go.bind, exec, h, pure, Outcome.after]

/-! ## PrivateMessage -/

/-- With a sender and a recipient that are both connected and the recipient's
mutex free, `PrivateMessage` does not return: it parks in `Send`, in the channel
send, holding the recipient's mutex, with the message offered on the channel. -/
theorem PrivateMessage_parks (w : World) (sender c : Ptr) (r message : String)
    (scl cl : Client) (hs : w.heap[sender]? = some scl) (hsd : scl.Disconnected = false)
    (hr : mapGet w.srv.Clients r = some c) (hc : w.heap[c]? = some cl)
    (hd : cl.Disconnected = false) (hmu : cl.mutex = false)
    (hopen : cl.MessageBus.closed = false) :
    ∃ k, exec (ChatServer.PrivateMessage sender r message) w
      = .blocked k (w.setClient c
          { cl with mutex := true,
                    MessageBus :=
                      { cl.MessageBus with sendq := cl.MessageBus.sendq ++ [message] } }) := by
  have hlt := heap_lt hc
  simp [ChatServer.PrivateMessage, Client.Send, loadDisconnected, mapLoad, lock, chanSend,
    unlock, bind, Go.bind, exec, hs, hsd, hr, hc, hd, hmu, hopen, World.setClient, hlt, pure]

/-- C2, as the code behaves on the scenario world:
`PrivateMessage(alice, "bob", "hi")` does not return nil; it parks with "hi"
offered on bob's channel and bob's mutex held.  Only when another goroutine
runs `bob.Receive()`, which returns "hi", can the parked call go on, and it then
returns nil and releases the mutex. -/
theorem PrivateMessage_blocks_before_Receive :
    ∃ k w1 w2,
      exec (ChatServer.PrivateMessage 0 "bob" "hi") aliceBob = .blocked k w1 ∧
      w1.heap[1]? = some
        { Username := "bob", MessageBus := { closed := false, sendq := ["hi"], taken := 0 },
          Disconnected := false, mutex := true } ∧
      exec (Client.Receive 1) w1 = .returned "hi" w2 ∧
      exec k w2 = .returned none
        { srv := aliceBob.srv,
          heap :=
            [{ Username := "alice", MessageBus := { closed := false, sendq := [], taken := 0 },
               Disconnected := false, mutex := false },
             { Username := "bob", MessageBus := { closed := false, sendq := [], taken := 1 },
               Disconnected := false, mutex := false }] } :=
  ⟨_, _, _, rfl, rfl, rfl, rfl⟩

/-- C3: when the sender's flag is false and `r` is not a key of the map,
`PrivateMessage(sender, r, M)` returns `ErrRecipientNotFound` in an unchanged
world.  In particular, when `Connect(u)` returned a client `a` and
`Disconnect(a)` returned, a `PrivateMessage` to `u` from a connected client
returns `ErrRecipientNotFound`. -/
theorem PrivateMessage_recipient_not_found (w : World) (sender : Ptr) (r M : String)
    (scl : Client) (hs : w.heap[sender]? = some scl) (hsd : scl.Disconnected = false) :
    (mapGet w.srv.Clients r = none →
      exec (ChatServer.PrivateMessage sender r M) w
        = .returned (some .ErrRecipientNotFound) w) ∧
    (∀ (w0 w1 : World) (a : Ptr),
      exec (ChatServer.Connect r) w0 = .returned (some a, none) w1 →
      exec (ChatServer.Disconnect a) w1 = .returned () w →
      exec (ChatServer.PrivateMessage sender r M) w
        = .returned (some .ErrRecipientNotFound) w) := by
  have key : mapGet w.srv.Clients r = none →
      exec (ChatServer.PrivateMessage sender r M) w
        = .returned (some .ErrRecipientNotFound) w := by
    intro hr
    simp [ChatServer.PrivateMessage, loadDisconnected, mapLoad, bind, Go.bind, exec, hs, hsd,
      hr, pure]
  refine ⟨key, ?_⟩
  intro w0 w1 a hconn hdis
  apply key
  obtain ⟨cl, hcl, _, _, _, hw⟩ := Disconnect_returned hdis
  -- the client that Connect returned carries the name r
  have hname : cl.Username = r := by
    cases hm : mapGet w0.srv.Clients r with
    | some q =>
      simp [ChatServer.Connect, mapLoad, bind, Go.bind, exec, hm, pure] at hconn
    | none =>
      simp [ChatServer.Connect, mapLoad, newClient, mapStore, bind, Go.bind, exec, hm,
        pure] at hconn
      obtain ⟨ha, hw1⟩ := hconn
      subst hw1
      subst ha
      simp at hcl
      rw [← hcl]
  rw [hw, ← hname]
  exact mapGet_mapErase_self _ _

/-- Witness for C3: in the world where only bob is connected, a message to
"ghost" is refused; and after `Connect("alice")` and `Disconnect(alice)` in that
world, a message from bob to "alice" is refused. -/
theorem PrivateMessage_recipient_not_found_witness :
    exec (ChatServer.PrivateMessage 0 "ghost" "hi") bobAlone
        = .returned (some .ErrRecipientNotFound) bobAlone ∧
    exec (ChatServer.PrivateMessage 0 "alice" "hey") bobAfterAlice
        = .returned (some .ErrRecipientNotFound) bobAfterAlice :=
  ⟨(PrivateMessage_recipient_not_found bobAlone 0 "ghost" "hi" _ rfl rfl).1 rfl,
   (PrivateMessage_recipient_not_found bobAfterAlice 0 "alice" "hey" _ rfl rfl).2
      bobAlone _ 1 rfl rfl⟩

/-- C4: when the sender's flag is true, `PrivateMessage(sender, r, M)` returns
`ErrClientDisconnected` for every `r`, in the map or not, and the world is
unchanged, so nothing is sent to any client. -/
theorem PrivateMessage_sender_disconnected (w : World) (sender : Ptr) (r M : String)
    (scl : Client) (hs : w.heap[sender]? = some scl) (hsd : scl.Disconnected = true) :
    exec (ChatServer.PrivateMessage sender r M) w
      = .returned (some .ErrClientDisconnected) w := by
  simp [ChatServer.PrivateMessage, loadDisconnected, bind, Go.bind, exec, hs, hsd, pure]

/-- Witness for C4: after `Disconnect(alice)`, alice's messages to the connected
"bob" and to the absent "ghost" are both refused with `ErrClientDisconnected`. -/
theorem PrivateMessage_sender_disconnected_witness :
    exec (ChatServer.PrivateMessage 0 "bob" "hi") aliceGone
        = .returned (some .ErrClientDisconnected) aliceGone ∧
    exec (ChatServer.PrivateMessage 0 "ghost" "hi") aliceGone
        = .returned (some .ErrClientDisconnected) aliceGone :=
  ⟨PrivateMessage_sender_disconnected aliceGone 0 "bob" "hi" _ rfl rfl,
   PrivateMessage_sender_disconnected aliceGone 0 "ghost" "hi" _ rfl rfl⟩

/-! ## Send and Receive -/

/-- C9: on a client whose flag is true, `Send(M)` returns without a panic in an
unchanged world: nothing is put on the channel and the client is as before. -/
theorem Send_disconnected_noop (w : World) (c : Ptr) (M : String) (cl : Client)
    (hc : w.heap[c]? = some cl) (hd : cl.Disconnected = true) :
    exec (Client.Send c M) w = .returned () w := by
  simp [Client.Send, loadDisconnected, bind, Go.bind, exec, hc, hd, pure]

/-- Witness for C9: after `Disconnect(alice)`, `alice.Send("hi")` returns and
changes nothing. -/
theorem Send_disconnected_noop_witness :
    exec (Client.Send 0 "hi") aliceGone = .returned () aliceGone :=
  Send_disconnected_noop aliceGone 0 "hi" _ rfl rfl

/-! ## Broadcast -/

/-- The call `Broadcast` returns at once in an unchanged world, whatever its arguments. -/
theorem Broadcast_does_nothing (w : World) (sender : Ptr) (message : String) :
    exec (ChatServer.Broadcast sender message) w = .returned () w :=
  rfl

/-- C8, as the code behaves on the scenario world:
`Broadcast(alice, "hello")` returns with the world unchanged, bob's channel
holds no message, and a following `bob.Receive()` parks instead of returning a
message that carries "hello". -/
theorem Broadcast_delivers_nothing :
    exec (ChatServer.Broadcast 0 "hello") aliceBob = .returned () aliceBob ∧
    aliceBob.heap[1]? = some
      { Username := "bob", MessageBus := { closed := false, sendq := [], taken := 0 },
        Disconnected := false, mutex := false } ∧
    ∃ k, exec (Client.Receive 1) aliceBob = .blocked k aliceBob :=
  ⟨rfl, rfl, _, rfl⟩

/-! ## Disconnect -/

/-- A second `Disconnect` of the same client never returns normally: when the
first call returned, the second panics in `close`. -/
theorem Disconnect_again_panics (w w1 : World) (c : Ptr)
    (h : exec (ChatServer.Disconnect c) w = .returned () w1) :
    ∃ w2, exec (ChatServer.Disconnect c) w1 = .panicked "close of closed channel" w2 := by
  obtain ⟨cl, hc, hsrv, hmu, hopen, hw⟩ := Disconnect_returned h
  have hlt := heap_lt hc
  subst hw
  simp [ChatServer.Disconnect, lock, unlock, loadUsername, mapDelete, storeDisconnected,
    chanClose, bind, Go.bind, exec, World.setClient, hlt]

/-- A `Disconnect` of a client that is already disconnected, made after a new
client has connected under the same name: before it panics in `close` it has
deleted the map entry of the new client, whose flag is still false. -/
theorem Disconnect_stale_removes_namesake :
    runCalls [.Connect "alice", .Disconnect 0, .Connect "alice"] NewChatServer
      = some
          { srv := { Clients := [("alice", 1)], serverMu := false },
            heap :=
              [{ Username := "alice",
                 MessageBus := { closed := true, sendq := [], taken := 0 },
                 Disconnected := true, mutex := false },
               { Username := "alice",
                 MessageBus := { closed := false, sendq := [], taken := 0 },
                 Disconnected := false, mutex := false }] } ∧
    exec (ChatServer.Disconnect 0)
        { srv := { Clients := [("alice", 1)], serverMu := false },
          heap :=
            [{ Username := "alice",
               MessageBus := { closed := true, sendq := [], taken := 0 },
               Disconnected := true, mutex := false },
             { Username := "alice",
               MessageBus := { closed := false, sendq := [], taken := 0 },
               Disconnected := false, mutex := false }] }
      = .panicked "close of closed channel"
          { srv := { Clients := [], serverMu := true },
            heap :=
              [{ Username := "alice",
                 MessageBus := { closed := true, sendq := [], taken := 0 },
                 Disconnected := true, mutex := true },
               { Username := "alice",
                 MessageBus := { closed := false, sendq := [], taken := 0 },
                 Disconnected := false, mutex := false }] } :=
  ⟨rfl, rfl⟩

/-- C6, as the code behaves on the scenario world: the first
`Disconnect(alice)` returns; the second one panics with "close of closed
channel" and leaves the server mutex and alice's mutex locked. -/
theorem Disconnect_twice_panics :
    exec (ChatServer.Disconnect 0) aliceBob = .returned () aliceGone ∧
    exec (ChatServer.Disconnect 0) aliceGone
      = .panicked "close of closed channel"
          { srv := { Clients := [("bob", 1)], serverMu := true },
            heap :=
              [{ Username := "alice",
                 MessageBus := { closed := true, sendq := [], taken := 0 },
                 Disconnected := true, mutex := true },
               { Username := "bob",
                 MessageBus := { closed := false, sendq := [], taken := 0 },
                 Disconnected := false, mutex := false }] } :=
  ⟨rfl, rfl⟩

/-! ## The invariant along runs of calls -/

theorem heap_set_get {l : List Client} {c : Ptr} {cl : Client} (x : Client) (p : Ptr)
    (hc : l[c]? = some cl) : (l.set c x)[p]? = if p = c then some x else l[p]? := by
  by_cases h : p = c
  · subst h
    simp [heap_set_self x hc]
  · simp [h, heap_set_other x h]

theorem heap_append_get (l : List Client) (x : Client) (p : Nat) :
    (l ++ [x])[p]? = if p = l.length then some x else l[p]? := by
  by_cases h : p = l.length
  · subst h
    simp
  · by_cases h2 : p < l.length
    · simp [h, List.getElem?_append, h2]
    · have h3 : l.length < p := by omega
      have h4 : (l ++ [x]).length ≤ p := by simp; omega
      simp [h, List.getElem?_eq_none h4, List.getElem?_eq_none (Nat.le_of_lt h3)]

theorem Inv_NewChatServer : Inv NewChatServer := by
  constructor
  · intro p cl h
    simp [NewChatServer] at h
  · intro k p h
    simp [NewChatServer, mapGet] at h

/-- Changing a mutex or the queue of a channel keeps the invariant. -/
theorem Inv_setClient {w : World} {c : Ptr} {cl : Client} (x : Client) (hinv : Inv w)
    (hc : w.heap[c]? = some cl) (hu : x.Username = cl.Username)
    (hd : x.Disconnected = cl.Disconnected)
    (hcl : x.MessageBus.closed = cl.MessageBus.closed) : Inv (w.setClient c x) := by
  obtain ⟨h1, h2⟩ := hinv
  constructor
  · intro p cl1 hp
    simp only [World.setClient, heap_set_get x p hc] at hp
    by_cases hpc : p = c
    · subst hpc
      simp at hp
      subst hp
      have := h1 p cl hc
      simpa [World.setClient, hu, hd, hcl] using this
    · simp [hpc] at hp
      simpa [World.setClient] using h1 p cl1 hp
  · intro k p hk
    obtain ⟨cl1, hp, hn⟩ := h2 k p (by simpa [World.setClient] using hk)
    simp only [World.setClient, heap_set_get x p hc]
    by_cases hpc : p = c
    · subst hpc
      rw [hc] at hp
      cases hp
      exact ⟨x, by simp, hu.trans hn⟩
    · exact ⟨cl1, by simp [hpc, hp], hn⟩

/-- Taking or releasing the server mutex keeps the invariant. -/
theorem Inv_serverMu {w : World} (b : Bool) (hinv : Inv w) :
    Inv { w with srv := { w.srv with serverMu := b } } :=
  hinv

/-- The insertion of a new client by `Connect` keeps the invariant. -/
theorem Inv_Connect {w : World} (u : String) (hinv : Inv w)
    (hu : mapGet w.srv.Clients u = none) :
    Inv { srv := { w.srv with Clients := mapPut w.srv.Clients u w.heap.length },
          heap := w.heap ++
            [{ Username := u, MessageBus := { closed := false, sendq := [], taken := 0 },
               Disconnected := false, mutex := false }] } := by
  obtain ⟨h1, h2⟩ := hinv
  constructor
  · intro p cl hp
    simp only [heap_append_get] at hp
    simp only [mapGet_mapPut]
    by_cases hpl : p = w.heap.length
    · subst hpl
      simp at hp
      subst hp
      simp
    · simp [hpl] at hp
      obtain ⟨h1a, h1b⟩ := h1 p cl hp
      refine ⟨?_, h1b⟩
      by_cases hn : cl.Username = u
      · have hne : ¬ w.heap.length = p := fun e => hpl e.symm
        rw [hn] at h1a
        simp only [hn, if_true]
        simp [hu] at h1a
        simp [hne, h1a]
      · simpa [hn] using h1a
  · intro k p hk
    simp only [mapGet_mapPut] at hk
    simp only [heap_append_get]
    by_cases hku : k = u
    · subst hku
      simp at hk
      subst hk
      simp
    · simp [hku] at hk
      obtain ⟨cl, hp, hn⟩ := h2 k p hk
      have hne : p ≠ w.heap.length := Nat.ne_of_lt (heap_lt hp)
      exact ⟨cl, by simp [hne, hp], hn⟩

/-- The removal of a client with an open channel by `Disconnect` keeps the
invariant. -/
theorem Inv_Disconnect {w : World} {c : Ptr} {cl : Client} (hinv : Inv w)
    (hc : w.heap[c]? = some cl) (hopen : cl.MessageBus.closed = false) :
    Inv { srv := { Clients := mapErase w.srv.Clients cl.Username, serverMu := false },
          heap := w.heap.set c
            { cl with Disconnected := true, mutex := false,
                      MessageBus := { cl.MessageBus with closed := true } } } := by
  obtain ⟨h1, h2⟩ := hinv
  have hcin : mapGet w.srv.Clients cl.Username = some c := by
    obtain ⟨ha, hb⟩ := h1 c cl hc
    exact ha.2 (by rw [← hb, hopen])
  constructor
  · intro p cl1 hp
    simp only [heap_set_get _ p hc] at hp
    simp only [mapGet_mapErase]
    by_cases hpc : p = c
    · subst hpc
      simp at hp
      subst hp
      simp
    · simp [hpc] at hp
      obtain ⟨h1a, h1b⟩ := h1 p cl1 hp
      refine ⟨?_, h1b⟩
      by_cases hn : cl1.Username = cl.Username
      · rw [hn, hcin] at h1a
        have hne : ¬ c = p := fun e => hpc e.symm
        simp [hne] at h1a
        simp [hn, h1a]
      · simpa [hn] using h1a
  · intro k p hk
    simp only [mapGet_mapErase] at hk
    simp only [heap_set_get _ p hc]
    by_cases hkn : k = cl.Username
    · simp [hkn] at hk
    · simp [hkn] at hk
      obtain ⟨cl1, hp, hn⟩ := h2 k p hk
      by_cases hpc : p = c
      · subst hpc
        rw [hc] at hp
        cases hp
        exact absurd hn.symm hkn
      · exact ⟨cl1, by simp [hpc, hp], hn⟩

/-- The world left behind by `Send` satisfies the invariant. -/
theorem Inv_Send {w w1 : World} (c : Ptr) (message : String) (hinv : Inv w)
    (h : (exec (Client.Send c message) w).after = some w1) : Inv w1 := by
  rw [Send_after] at h
  cases hc : w.heap[c]? with
  | none => simp [hc] at h
  | some cl =>
    simp only [hc] at h
    split at h
    · cases h
      exact hinv
    · split at h
      · cases h
        exact hinv
      · split at h
        · cases h
        · cases h
          exact Inv_setClient _ hinv hc rfl rfl rfl

/-- Every call leaves a world that satisfies the invariant. -/
theorem Call_run_Inv {w w1 : World} (call : Call) (hinv : Inv w)
    (h : call.run w = some w1) : Inv w1 := by
  cases call with
  | Connect username =>
    simp only [Call.run, Connect_after] at h
    cases hm : mapGet w.srv.Clients username with
    | some q =>
      simp only [hm] at h
      cases h
      exact hinv
    | none =>
      simp only [hm] at h
      cases h
      exact Inv_Connect username hinv hm
  | Disconnect client =>
    simp only [Call.run, Disconnect_after] at h
    split at h
    · cases h
      exact hinv
    · cases hc : w.heap[client]? with
      | none => simp [hc] at h
      | some cl =>
        simp only [hc] at h
        split at h
        · cases h
          exact Inv_serverMu true hinv
        · split at h
          · cases h
          · rename_i hopen
            cases h
            exact Inv_Disconnect hinv hc (by simpa using hopen)
  | Broadcast sender message =>
    simp only [Call.run, Broadcast_does_nothing, Outcome.after] at h
    cases h
    exact hinv
  | PrivateMessage sender recipient message =>
    simp only [Call.run, PrivateMessage_after] at h
    cases hs : w.heap[sender]? with
    | none => simp [hs] at h
    | some scl =>
      simp only [hs] at h
      split at h
      · cases h
        exact hinv
      · cases hr : mapGet w.srv.Clients recipient with
        | none =>
          simp only [hr] at h
          cases h
          exact hinv
        | some c =>
          simp only [hr] at h
          exact Inv_Send c message hinv h
  | Send c message => exact Inv_Send c message hinv h
  | Receive c =>
    simp only [Call.run, Receive_after] at h
    cases hc : w.heap[c]? with
    | none => simp [hc] at h
    | some cl =>
      simp only [hc] at h
      split at h
      · cases h
        exact hinv
      · split at h
        · cases h
          exact hinv
        · cases h
          exact Inv_setClient _ hinv hc rfl rfl rfl

/-- Every run of calls from a world that satisfies the invariant ends in one. -/
theorem runCalls_Inv (calls : List Call) {w w1 : World} (hinv : Inv w)
    (h : runCalls calls w = some w1) : Inv w1 := by
  induction calls generalizing w with
  | nil =>
    simp only [runCalls] at h
    cases h
    exact hinv
  | cons call rest ih =>
    simp only [runCalls] at h
    cases hr : call.run w with
    | none => simp [hr] at h
    | some w2 =>
      simp only [hr] at h
      exact ih (Call_run_Inv call hinv hr) h

/-- A change of one client object that keeps its flag keeps `Gone`. -/
theorem Gone_setClient {w : World} {c p : Ptr} {cl : Client} (x : Client) (hg : Gone w p)
    (hc : w.heap[c]? = some cl) (hd : cl.Disconnected = true → x.Disconnected = true) :
    Gone (w.setClient c x) p := by
  obtain ⟨cl1, hp, hf⟩ := hg
  simp only [Gone, World.setClient, heap_set_get x p hc]
  by_cases hpc : p = c
  · subst hpc
    rw [hc] at hp
    cases hp
    exact ⟨x, by simp, hd hf⟩
  · exact ⟨cl1, by simp [hpc, hp], hf⟩

theorem Gone_Send {w w1 : World} {p : Ptr} (c : Ptr) (message : String) (hg : Gone w p)
    (h : (exec (Client.Send c message) w).after = some w1) : Gone w1 p := by
  rw [Send_after] at h
  cases hc : w.heap[c]? with
  | none => simp [hc] at h
  | some cl =>
    simp only [hc] at h
    split at h
    · cases h
      exact hg
    · split at h
      · cases h
        exact hg
      · split at h
        · cases h
        · cases h
          exact Gone_setClient _ hg hc (fun e => e)

/-- No call sets a flag back to false. -/
theorem Call_run_Gone {w w1 : World} {p : Ptr} (call : Call) (hg : Gone w p)
    (h : call.run w = some w1) : Gone w1 p := by
  cases call with
  | Connect username =>
    simp only [Call.run, Connect_after] at h
    cases hm : mapGet w.srv.Clients username with
    | some q =>
      simp only [hm] at h
      cases h
      exact hg
    | none =>
      simp only [hm] at h
      cases h
      obtain ⟨cl1, hp, hf⟩ := hg
      have hne : p ≠ w.heap.length := Nat.ne_of_lt (heap_lt hp)
      exact ⟨cl1, by simp [heap_append_get, hne, hp], hf⟩
  | Disconnect client =>
    simp only [Call.run, Disconnect_after] at h
    split at h
    · cases h
      exact hg
    · cases hc : w.heap[client]? with
      | none => simp [hc] at h
      | some cl =>
        simp only [hc] at h
        split at h
        · cases h
          exact hg
        · split at h
          · cases h
          · cases h
            obtain ⟨cl1, hp, hf⟩ := hg
            simp only [Gone, heap_set_get _ p hc]
            by_cases hpc : p = client
            · exact ⟨{ cl with Disconnected := true, mutex := false,
                                MessageBus := { cl.MessageBus with closed := true } },
                by simp [hpc], rfl⟩
            · exact ⟨cl1, by simp [hpc, hp], hf⟩
  | Broadcast sender message =>
    simp only [Call.run, Broadcast_does_nothing, Outcome.after] at h
    cases h
    exact hg
  | PrivateMessage sender recipient message =>
    simp only [Call.run, PrivateMessage_after] at h
    cases hs : w.heap[sender]? with
    | none => simp [hs] at h
    | some scl =>
      simp only [hs] at h
      split at h
      · cases h
        exact hg
      · cases hr : mapGet w.srv.Clients recipient with
        | none =>
          simp only [hr] at h
          cases h
          exact hg
        | some c =>
          simp only [hr] at h
          exact Gone_Send c message hg h
  | Send c message => exact Gone_Send c message hg h
  | Receive c =>
    simp only [Call.run, Receive_after] at h
    cases hc : w.heap[c]? with
    | none => simp [hc] at h
    | some cl =>
      simp only [hc] at h
      split at h
      · cases h
        exact hg
      · split at h
        · cases h
          exact hg
        · cases h
          exact Gone_setClient _ hg hc (fun e => e)

theorem runCalls_Gone (calls : List Call) {w w1 : World} {p : Ptr} (hg : Gone w p)
    (h : runCalls calls w = some w1) : Gone w1 p := by
  induction calls generalizing w with
  | nil =>
    simp only [runCalls] at h
    cases h
    exact hg
  | cons call rest ih =>
    simp only [runCalls] at h
    cases hr : call.run w with
    | none => simp [hr] at h
    | some w2 =>
      simp only [hr] at h
      exact ih (Call_run_Gone call hg hr) h

/-! ## The contract of Disconnect and the directory invariant -/

/-- C5: in every world, for a client `c` whose channel is open (as `Connect`
makes it and as it stays until `Disconnect` closes it, so for every connected
client), with the server mutex and the client's mutex free at the call:
`Disconnect(c)` returns, and afterwards the map has no entry for `c.Username`,
the flag of `c` is true, its channel is closed, both mutexes are free, every
map entry for another name is as before and so is every other client object. -/
theorem Disconnect_contract (w : World) (c : Ptr) (cl : Client)
    (hc : w.heap[c]? = some cl) (hopen : cl.MessageBus.closed = false)
    (hsrv : w.srv.serverMu = false) (hmu : cl.mutex = false) :
    ∃ w1 : World, exec (ChatServer.Disconnect c) w = .returned () w1 ∧
      mapGet w1.srv.Clients cl.Username = none ∧
      (∃ cl1, w1.heap[c]? = some cl1 ∧ cl1.Username = cl.Username ∧
        cl1.Disconnected = true ∧ cl1.MessageBus.closed = true ∧ cl1.mutex = false) ∧
      w1.srv.serverMu = false ∧
      (∀ k : String, k ≠ cl.Username →
        mapGet w1.srv.Clients k = mapGet w.srv.Clients k) ∧
      (∀ p : Ptr, p ≠ c → w1.heap[p]? = w.heap[p]?) := by
  refine ⟨_, Disconnect_returns w c cl hc hsrv hmu hopen, ?_, ?_, rfl, ?_, ?_⟩
  · exact mapGet_mapErase_self _ _
  · exact ⟨_, heap_set_self _ hc, rfl, rfl, rfl, rfl⟩
  · intro k hk
    exact mapGet_mapErase_ne _ _ _ hk
  · intro p hp
    exact heap_set_other _ hp

/-- Witness for C5: `Disconnect(bob)` in the scenario world after bob has
received a message. -/
theorem Disconnect_contract_witness :
    ∃ w1 : World, exec (ChatServer.Disconnect 1) aliceBobAfterHi = .returned () w1 ∧
      mapGet w1.srv.Clients "bob" = none ∧
      (∃ cl1, w1.heap[1]? = some cl1 ∧ cl1.Username = "bob" ∧
        cl1.Disconnected = true ∧ cl1.MessageBus.closed = true ∧ cl1.mutex = false) ∧
      w1.srv.serverMu = false ∧
      (∀ k : String, k ≠ "bob" →
        mapGet w1.srv.Clients k = mapGet aliceBobAfterHi.srv.Clients k) ∧
      (∀ p : Ptr, p ≠ 1 → w1.heap[p]? = aliceBobAfterHi.heap[p]?) :=
  Disconnect_contract aliceBobAfterHi 1 _ rfl rfl rfl rfl

/-- In a world left by a run of calls on a new server, a client whose flag is
false has an open channel. -/
theorem connected_channel_open (calls : List Call) (w : World) (c : Ptr) (cl : Client)
    (hrun : runCalls calls NewChatServer = some w) (hc : w.heap[c]? = some cl)
    (hconn : cl.Disconnected = false) : cl.MessageBus.closed = false := by
  have hinv := runCalls_Inv calls Inv_NewChatServer hrun
  rw [(hinv.1 c cl hc).2, hconn]

/-- C7, as the code behaves on `Connect("alice")`, `Disconnect` of that
client, `Connect("alice")` again and `Disconnect` of the first client once
more: the last call deletes the map entry of the second client and then panics
in `close`, so the second client has its flag false and is the value of no map
entry. -/
theorem Disconnect_stale_breaks_directory :
    ∃ w1 w2 w3 w4 : World,
      exec (ChatServer.Connect "alice") NewChatServer = .returned (some 0, none) w1 ∧
      exec (ChatServer.Disconnect 0) w1 = .returned () w2 ∧
      exec (ChatServer.Connect "alice") w2 = .returned (some 1, none) w3 ∧
      mapGet w3.srv.Clients "alice" = some 1 ∧
      exec (ChatServer.Disconnect 0) w3 = .panicked "close of closed channel" w4 ∧
      w4.heap[1]? = some
        { Username := "alice", MessageBus := { closed := false, sendq := [], taken := 0 },
          Disconnected := false, mutex := false } ∧
      mapGet w4.srv.Clients "alice" = none ∧
      w4.srv.Clients = [] :=
  ⟨_, _, _, _, rfl, rfl, rfl, rfl, rfl, rfl, rfl, rfl⟩

/-- Along the runs in which no call panics the directory is right: in every
world left by a run of `Connect`, `Disconnect`, `Broadcast`, `PrivateMessage`,
`Send` and `Receive` calls on a new server that each return or park, a client
object is the value of the map entry under its own `Username` if and only if
its flag is false, and it is the value of no entry under another key. -/
theorem directory_invariant (calls : List Call) (w : World) (p : Ptr) (cl : Client)
    (hrun : runCalls calls NewChatServer = some w) (hp : w.heap[p]? = some cl) :
    (mapGet w.srv.Clients cl.Username = some p ↔ cl.Disconnected = false) ∧
    (∀ k : String, mapGet w.srv.Clients k = some p → k = cl.Username) := by
  have hinv := runCalls_Inv calls Inv_NewChatServer hrun
  refine ⟨(hinv.1 p cl hp).1, ?_⟩
  intro k hk
  obtain ⟨cl1, hp1, hn⟩ := hinv.2 k p hk
  rw [hp] at hp1
  cases hp1
  exact hn.symm

/-- An instance of `directory_invariant`: after `Connect("alice")`,
`Connect("bob")`, `Disconnect(alice)` the client alice has her flag set and is
not in the map. -/
theorem directory_invariant_witness :
    (mapGet aliceGone.srv.Clients "alice" = some 0 ↔ true = false) ∧
    (∀ k : String, mapGet aliceGone.srv.Clients k = some 0 → k = "alice") :=
  directory_invariant [.Connect "alice", .Connect "bob", .Disconnect 0] aliceGone 0
    { Username := "alice", MessageBus := { closed := true, sendq := [], taken := 0 },
      Disconnected := true, mutex := false } rfl rfl

/-- C10: once `Disconnect(A)` has returned, then after any further calls that
leave a world behind, `A.Receive()` returns the empty string at once, in an
unchanged world; so does every later `A.Receive()`. -/
theorem Receive_after_Disconnect (w w1 w2 : World) (A : Ptr) (calls : List Call)
    (hdis : exec (ChatServer.Disconnect A) w = .returned () w1)
    (hrun : runCalls calls w1 = some w2) :
    exec (Client.Receive A) w2 = .returned "" w2 := by
  obtain ⟨cl, hc, _, _, _, hw⟩ := Disconnect_returned hdis
  have hg1 : Gone w1 A := by
    subst hw
    exact ⟨_, heap_set_self _ hc, rfl⟩
  obtain ⟨cl2, hc2, hf2⟩ := runCalls_Gone calls hg1 hrun
  simp [Client.Receive, loadDisconnected, bind, Go.bind, exec, hc2, hf2, pure]

/-- Witness for C10: after `Disconnect(alice)` in the scenario world, and after
two calls of `alice.Receive()` and a `Connect("carol")`, `alice.Receive()`
returns the empty string. -/
theorem Receive_after_Disconnect_witness :
    exec (Client.Receive 0)
        { srv := { Clients := [("carol", 2), ("bob", 1)], serverMu := false },
          heap := aliceGone.heap ++
            [{ Username := "carol", MessageBus := { closed := false, sendq := [], taken := 0 },
               Disconnected := false, mutex := false }] }
      = .returned ""
        { srv := { Clients := [("carol", 2), ("bob", 1)], serverMu := false },
          heap := aliceGone.heap ++
            [{ Username := "carol", MessageBus := { closed := false, sendq := [], taken := 0 },
               Disconnected := false, mutex := false }] } :=
  Receive_after_Disconnect aliceBob aliceGone _ 0 [.Receive 0, .Receive 0, .Connect "carol"]
    rfl rfl


/-! ## Concurrent calls of Connect -/

/-- Running a goroutine alone is taking its steps one after the other: `exec`
follows `step` until the computation has finished, is parked or panics. -/
theorem exec_step {α : Type} (k : Go α) (w : World) :
    exec k w =
      match step k w with
      | .finished a => .returned a w
      | .moved k1 w1 => exec k1 w1
      | .parked => .blocked k w
      | .panicked msg w1 => .panicked msg w1 := by
  cases k with
  | ret a => rfl
  | lock m k =>
    cases m with
    | serverMu =>
      by_cases h : w.srv.serverMu = true <;> simp [exec, step, h]
    | client c =>
      cases hc : w.heap[c]? with
      | none => simp [exec, step, hc]
      | some cl => by_cases h : cl.mutex = true <;> simp [exec, step, hc, h]
  | unlock m k =>
    cases m with
    | serverMu =>
      by_cases h : w.srv.serverMu = true <;> simp [exec, step, h]
    | client c =>
      cases hc : w.heap[c]? with
      | none => simp [exec, step, hc]
      | some cl => by_cases h : cl.mutex = true <;> simp [exec, step, hc, h]
  | loadDisconnected c k =>
    cases hc : w.heap[c]? <;> simp [exec, step, hc]
  | storeDisconnected c b k =>
    cases hc : w.heap[c]? <;> simp [exec, step, hc]
  | loadUsername c k =>
    cases hc : w.heap[c]? <;> simp [exec, step, hc]
  | chanSend c message k =>
    cases hc : w.heap[c]? with
    | none => simp [exec, step, hc]
    | some cl =>
      have hlt := heap_lt hc
      by_cases h : cl.MessageBus.closed = true
      · simp [exec, step, hc, h]
      · simp [exec, step, hc, h, World.setClient, hlt]
  | chanSendPark c ticket k =>
    cases hc : w.heap[c]? with
    | none => simp [exec, step, hc]
    | some cl =>
      by_cases h1 : ticket < cl.MessageBus.taken
      · simp [exec, step, hc, h1]
      · by_cases h : cl.MessageBus.closed = true <;> simp [exec, step, hc, h1, h]
  | chanRecv c k =>
    cases hc : w.heap[c]? with
    | none => simp [exec, step, hc]
    | some cl =>
      cases hq : cl.MessageBus.sendq with
      | nil => by_cases h : cl.MessageBus.closed = true <;> simp [exec, step, hc, hq, h]
      | cons m rest => simp [exec, step, hc, hq]
  | chanClose c k =>
    cases hc : w.heap[c]? with
    | none => simp [exec, step, hc]
    | some cl => by_cases h : cl.MessageBus.closed = true <;> simp [exec, step, hc, h]
  | mapLoad key k => simp [exec, step]
  | mapStore key v k => simp [exec, step]
  | mapDelete key k => simp [exec, step]
  | newClient username k => simp [exec, step]

/-- C11, as the code behaves for two goroutines that call `Connect("alice")`
on a new server: when both read the map before either stores its client, both
calls return a client and no error, and none returns
`ErrUsernameAlreadyTaken`.  The map then holds the second client only, while the
flag of the first is false as well. -/
theorem Connect_race_both_succeed :
    ((connectPool 2 "alice" NewChatServer).run [0, 1, 0, 0, 0, 1, 1, 1]).results
      = [some (some 0, none), some (some 1, none)] ∧
    ((connectPool 2 "alice" NewChatServer).run [0, 1, 0, 0, 0, 1, 1, 1]).w
      = { srv := { Clients := [("alice", 1)], serverMu := false },
          heap :=
            [{ Username := "alice", MessageBus := { closed := false, sendq := [], taken := 0 },
               Disconnected := false, mutex := false },
             { Username := "alice", MessageBus := { closed := false, sendq := [], taken := 0 },
               Disconnected := false, mutex := false }] } :=
  ⟨rfl, rfl⟩

/-- When the two goroutines run one after the other, the first call returns a
client and the second `ErrUsernameAlreadyTaken`. -/
theorem Connect_one_after_the_other :
    ((connectPool 2 "alice" NewChatServer).run [0, 0, 0, 0, 1, 1]).results
      = [some (some 0, none), some (none, some .ErrUsernameAlreadyTaken)] :=
  rfl

end Challenge8

/-! ## Challenge 21: binary search -/

namespace Challenge21

theorem index_eq_some {arr : List Int} {i x : Int} (h : index arr i = some x) :
    0 ≤ i ∧ i < arr.length ∧ arr[i.toNat]? = some x := by
  unfold index at h
  split at h
  · rename_i h0
    have hlt : i.toNat < arr.length := by
      by_contra hge
      rw [List.getElem?_eq_none (Nat.le_of_not_lt hge)] at h
      cases h
    refine ⟨h0, ?_, h⟩
    omega
  · cases h

theorem index_in_range (arr : List Int) (i : Int) (h0 : 0 ≤ i) (h1 : i < arr.length) :
    ∃ x, index arr i = some x := by
  have hlt : i.toNat < arr.length := by omega
  exact ⟨arr[i.toNat], by simp [index, h0, List.getElem?_eq_getElem hlt]⟩

/-- In a sorted slice the elements grow with the index. -/
theorem sorted_index {arr : List Int} (hs : arr.Pairwise (· ≤ ·)) {i j a b : Int}
    (hi : index arr i = some a) (hj : index arr j = some b) (hij : i ≤ j) : a ≤ b := by
  obtain ⟨hi0, hi1, hia⟩ := index_eq_some hi
  obtain ⟨hj0, hj1, hjb⟩ := index_eq_some hj
  have hilt : i.toNat < arr.length := by omega
  have hjlt : j.toNat < arr.length := by omega
  rw [List.getElem?_eq_getElem hilt] at hia
  rw [List.getElem?_eq_getElem hjlt] at hjb
  cases hia
  cases hjb
  by_cases he : i.toNat = j.toNat
  · simp [he]
  · have hlt : i.toNat < j.toNat := by omega
    exact List.pairwise_iff_getElem.1 hs _ _ hilt hjlt hlt

/-- What the loop of `BinarySearch` returns on a window of a sorted slice. -/
theorem BinarySearch_loop_spec (arr : List Int) (target : Int)
    (hs : arr.Pairwise (· ≤ ·)) :
    ∀ (fuel : Nat) (left right : Int), 0 ≤ left → right < arr.length →
      0 < fuel → right - left + 1 < fuel →
      (∃ i, BinarySearch.loop arr target fuel left right = .ok i ∧ left ≤ i ∧ i ≤ right ∧
        index arr i = some target) ∨
      (BinarySearch.loop arr target fuel left right = .ok (-1) ∧
        ∀ i, left ≤ i → i ≤ right → index arr i ≠ some target) := by
  intro fuel
  induction fuel with
  | zero =>
    intro left right h0 h1 hpos hf
    omega
  | succ fuel ih =>
    intro left right h0 h1 _ hf
    unfold BinarySearch.loop
    by_cases hlr : left ≤ right
    · simp only [hlr, if_true]
      have hc0 : left ≤ left + (right - left) / 2 := by omega
      have hc1 : left + (right - left) / 2 ≤ right := by omega
      obtain ⟨x, hx⟩ := index_in_range arr (left + (right - left) / 2)
        (by omega) (by omega)
      simp only [hx]
      by_cases hxt : x = target
      · left
        exact ⟨_, by simp [hxt], hc0, hc1, by rw [hx, hxt]⟩
      · simp only [hxt, if_false]
        by_cases hlt : x < target
        · simp only [hlt, if_true]
          rcases ih (left + (right - left) / 2 + 1) right (by omega) h1 (by omega) (by omega) with
            ⟨i, hi, hi1, hi2, hi3⟩ | ⟨hm, hno⟩
          · left
            exact ⟨i, hi, by omega, hi2, hi3⟩
          · right
            refine ⟨hm, ?_⟩
            intro i hil hir hit
            by_cases hic : i ≤ left + (right - left) / 2
            · have := sorted_index hs hit hx hic
              omega
            · exact hno i (by omega) hir hit
        · simp only [hlt, if_false]
          rcases ih left (left + (right - left) / 2 - 1) h0 (by omega) (by omega) (by omega) with
            ⟨i, hi, hi1, hi2, hi3⟩ | ⟨hm, hno⟩
          · left
            exact ⟨i, hi, hi1, by omega, hi3⟩
          · right
            refine ⟨hm, ?_⟩
            intro i hil hir hit
            by_cases hic : left + (right - left) / 2 ≤ i
            · have := sorted_index hs hx hit hic
              omega
            · exact hno i hil (by omega) hit
    · right
      simp only [hlr, if_false]
      exact ⟨trivial, fun i h1 h2 => by omega⟩

theorem mem_iff_index (arr : List Int) (target : Int) :
    target ∈ arr ↔ ∃ i : Int, 0 ≤ i ∧ i ≤ (arr.length : Int) - 1 ∧ index arr i = some target := by
  constructor
  · intro h
    obtain ⟨n, hn, hx⟩ := List.getElem_of_mem h
    refine ⟨(n : Int), by omega, by omega, ?_⟩
    simp [index, List.getElem?_eq_getElem hn, hx]
  · rintro ⟨i, h0, h1, hi⟩
    obtain ⟨_, _, h⟩ := index_eq_some hi
    exact List.getElem?_mem h

/-- C12: on a slice sorted in non-decreasing order, with more fuel than the
slice has elements, `BinarySearch` returns an index `i` with `0 <= i < len(arr)`
and `arr[i] == target` when the target occurs in the slice, and -1 when it does
not (as for the empty slice). -/
theorem BinarySearch_correct (arr : List Int) (target : Int) (fuel : Nat)
    (hs : arr.Pairwise (· ≤ ·)) (hfuel : arr.length < fuel) :
    (target ∈ arr →
      ∃ i, BinarySearch fuel arr target = .ok i ∧ 0 ≤ i ∧ i < arr.length ∧
        index arr i = some target) ∧
    (target ∉ arr → BinarySearch fuel arr target = .ok (-1)) := by
  have key := BinarySearch_loop_spec arr target hs fuel 0 ((arr.length : Int) - 1)
    (le_refl 0) (by omega) (by omega) (by omega)
  constructor
  · intro hmem
    rcases key with ⟨i, hi, hi1, hi2, hi3⟩ | ⟨_, hno⟩
    · exact ⟨i, hi, hi1, by omega, hi3⟩
    · obtain ⟨i, h0, h1, hi⟩ := (mem_iff_index arr target).1 hmem
      exact absurd hi (hno i h0 h1)
  · intro hnot
    rcases key with ⟨i, hi, hi1, hi2, hi3⟩ | ⟨hm, _⟩
    · exact absurd ((mem_iff_index arr target).2 ⟨i, hi1, hi2, hi3⟩) hnot
    · exact hm

/-- Witness for C12: the slice of `main`, where 7 is found and 8 is not. -/
theorem BinarySearch_correct_witness :
    (∃ i, BinarySearch 11 [1, 3, 5, 7, 9, 11, 13, 15, 17, 19] 7 = .ok i ∧ 0 ≤ i ∧
        i < ([1, 3, 5, 7, 9, 11, 13, 15, 17, 19] : List Int).length ∧
        index [1, 3, 5, 7, 9, 11, 13, 15, 17, 19] i = some 7) ∧
    BinarySearch 11 [1, 3, 5, 7, 9, 11, 13, 15, 17, 19] 8 = .ok (-1) :=
  ⟨(BinarySearch_correct [1, 3, 5, 7, 9, 11, 13, 15, 17, 19] 7 11 (by decide) (by decide)).1
      (by decide),
   (BinarySearch_correct [1, 3, 5, 7, 9, 11, 13, 15, 17, 19] 8 11 (by decide) (by decide)).2
      (by decide)⟩

/-- The recursion makes the same tests as the loop, in another order. -/
theorem BinarySearchRecursive_eq_loop (arr : List Int) (target : Int) :
    ∀ (fuel : Nat) (left right : Int),
      BinarySearchRecursive arr target fuel left right
        = BinarySearch.loop arr target fuel left right := by
  intro fuel
  induction fuel with
  | zero => intro left right; rfl
  | succ fuel ih =>
    intro left right
    unfold BinarySearchRecursive BinarySearch.loop
    by_cases hlr : left ≤ right
    · have hrl : ¬ right < left := by omega
      simp only [hlr, hrl, if_true, if_false]
      cases hx : index arr (left + (right - left) / 2) with
      | none => rfl
      | some x =>
        simp only []
        by_cases hlt : x < target
        · have hne : ¬ x = target := by omega
          simp only [hlt, hne, if_true, if_false, ih]
        · by_cases hgt : x > target
          · have hne : ¬ x = target := by omega
            simp only [hlt, hgt, hne, if_true, if_false, ih]
          · have he : x = target := by omega
            subst he
            simp
    · have hrl : right < left := by omega
      simp only [hlr, hrl, if_true, if_false]

/-- C13: on a slice sorted in non-decreasing order, with `0 <= left`,
`right < len(arr)` and more fuel than the slice has elements,
`BinarySearchRecursive` returns: an index `i` with `left <= i <= right` and
`arr[i] == target` when the target occurs in `arr[left..right]`, and -1
otherwise; and called with `0` and `len(arr)-1` it returns what `BinarySearch`
returns. -/
theorem BinarySearchRecursive_correct (arr : List Int) (target : Int) (fuel : Nat)
    (left right : Int) (hs : arr.Pairwise (· ≤ ·)) (h0 : 0 ≤ left)
    (h1 : right < arr.length) (hfuel : arr.length < fuel) :
    ((∃ i, left ≤ i ∧ i ≤ right ∧ index arr i = some target) →
      ∃ i, BinarySearchRecursive arr target fuel left right = .ok i ∧ left ≤ i ∧ i ≤ right ∧
        index arr i = some target) ∧
    ((¬ ∃ i, left ≤ i ∧ i ≤ right ∧ index arr i = some target) →
      BinarySearchRecursive arr target fuel left right = .ok (-1)) ∧
    BinarySearchRecursive arr target fuel 0 ((arr.length : Int) - 1)
      = BinarySearch fuel arr target := by
  have key := BinarySearch_loop_spec arr target hs fuel left right h0 h1 (by omega) (by omega)
  rw [← BinarySearchRecursive_eq_loop] at key
  refine ⟨?_, ?_, BinarySearchRecursive_eq_loop arr target fuel 0 _⟩
  · rintro ⟨j, hj1, hj2, hj3⟩
    rcases key with hfound | ⟨_, hno⟩
    · exact hfound
    · exact absurd hj3 (hno j hj1 hj2)
  · intro hnone
    rcases key with ⟨i, _, hi1, hi2, hi3⟩ | ⟨hm, _⟩
    · exact absurd ⟨i, hi1, hi2, hi3⟩ hnone
    · exact hm

/-- Witness for C13: the slice of `main` with the window from 2 to 5, which
holds the target 7. -/
theorem BinarySearchRecursive_correct_witness :
    (∃ i, BinarySearchRecursive [1, 3, 5, 7, 9, 11, 13, 15, 17, 19] 7 11 2 5 = .ok i ∧
        2 ≤ i ∧ i ≤ 5 ∧ index [1, 3, 5, 7, 9, 11, 13, 15, 17, 19] i = some 7) ∧
    BinarySearchRecursive [1, 3, 5, 7, 9, 11, 13, 15, 17, 19] 7 11 0 9
      = BinarySearch 11 [1, 3, 5, 7, 9, 11, 13, 15, 17, 19] 7 :=
  ⟨(BinarySearchRecursive_correct [1, 3, 5, 7, 9, 11, 13, 15, 17, 19] 7 11 2 5 (by decide)
      (by decide) (by decide) (by decide)).1 ⟨3, by decide, by decide, by decide⟩,
   (BinarySearchRecursive_correct [1, 3, 5, 7, 9, 11, 13, 15, 17, 19] 7 11 2 5 (by decide)
      (by decide) (by decide) (by decide)).2.2⟩

/-- What the loop of `FindInsertPosition` returns on a window of a sorted
slice, when all elements before the window are smaller than the target and all
elements after it are greater. -/
theorem FindInsertPosition_loop_spec (arr : List Int) (target : Int)
    (hs : arr.Pairwise (· ≤ ·)) :
    ∀ (fuel : Nat) (left right current0 : Int), 0 ≤ left → left ≤ right →
      right < arr.length → right - left + 1 < fuel →
      (∀ i x, i < left → index arr i = some x → x < target) →
      (∀ i x, right < i → index arr i = some x → target < x) →
      ∃ p, FindInsertPosition.loop arr target fuel left right current0 = .ok p ∧
        0 ≤ p ∧ p ≤ arr.length ∧
        (∀ i x, i < p → index arr i = some x → x ≤ target) ∧
        (∀ i x, p ≤ i → index arr i = some x → target ≤ x) := by
  intro fuel
  induction fuel with
  | zero =>
    intro left right current0 h0 hlr h1 hf
    omega
  | succ fuel ih =>
    intro left right current0 h0 hlr h1 hf hbefore hafter
    unfold FindInsertPosition.loop
    simp only [hlr, if_true]
    obtain ⟨l, hl⟩ := index_in_range arr left h0 (by omega)
    obtain ⟨r, hr⟩ := index_in_range arr right (by omega) h1
    obtain ⟨c, hc⟩ := index_in_range arr (left + (right - left) / 2)
      (by omega) (by omega)
    simp only [hl, hr, hc]
    by_cases htl : target ≤ l
    · simp only [htl, if_true]
      refine ⟨left, rfl, h0, by omega, ?_, ?_⟩
      · intro i x hi hx
        exact le_of_lt (hbefore i x hi hx)
      · intro i x hi hx
        have := sorted_index hs hl hx hi
        omega
    · simp only [htl, if_false]
      by_cases htr : target > r
      · simp only [htr, if_true]
        refine ⟨right + 1, rfl, by omega, by omega, ?_, ?_⟩
        · intro i x hi hx
          have := sorted_index hs hx hr (by omega)
          omega
        · intro i x hi hx
          exact le_of_lt (hafter i x (by omega) hx)
      · simp only [htr, if_false]
        by_cases htc : target > c
        · simp only [htc, if_true]
          have hcr : left + (right - left) / 2 < right := by
            by_contra hge
            have he : left + (right - left) / 2 = right := by omega
            rw [he, hr] at hc
            cases hc
            omega
          apply ih (left + (right - left) / 2 + 1) right _ (by omega) (by omega) h1 (by omega)
          · intro i x hi hx
            have := sorted_index hs hx hc (by omega)
            omega
          · exact hafter
        · simp only [htc, if_false]
          by_cases hct : target < c
          · simp only [hct, if_true]
            have hcl : left < left + (right - left) / 2 := by
              by_contra hge
              have he : left + (right - left) / 2 = left := by omega
              rw [he, hl] at hc
              cases hc
              omega
            apply ih left (left + (right - left) / 2 - 1) _ h0 (by omega) (by omega) (by omega)
            · exact hbefore
            · intro i x hi hx
              have := sorted_index hs hc hx (by omega)
              omega
          · simp only [hct, if_false]
            have he : c = target := by omega
            refine ⟨_, rfl, by omega, by omega, ?_, ?_⟩
            · intro i x hi hx
              have := sorted_index hs hx hc (by omega)
              omega
            · intro i x hi hx
              have := sorted_index hs hc hx hi
              omega

theorem mem_take_index {arr : List Int} {n : Nat} {a : Int} (h : a ∈ arr.take n) :
    ∃ i : Int, i < n ∧ index arr i = some a := by
  obtain ⟨k, hk⟩ := List.mem_iff_getElem?.1 h
  rw [List.getElem?_take] at hk
  split at hk
  · rename_i hkn
    exact ⟨(k : Int), by omega, by simp [index, hk]⟩
  · cases hk

theorem mem_drop_index {arr : List Int} {n : Nat} {a : Int} (h : a ∈ arr.drop n) :
    ∃ i : Int, (n : Int) ≤ i ∧ index arr i = some a := by
  obtain ⟨k, hk⟩ := List.mem_iff_getElem?.1 h
  rw [List.getElem?_drop] at hk
  refine ⟨((n + k : Nat) : Int), by omega, ?_⟩
  have h0 : (0 : Int) ≤ ((n + k : Nat) : Int) := by omega
  simp only [index, h0, if_true, Int.toNat_ofNat]
  exact hk

/-- C14: on a slice sorted in non-decreasing order, with more fuel than the
slice has elements, `FindInsertPosition` returns a position `p` with
`0 <= p <= len(arr)`, every element before `p` is at most the target, every
element at or after `p` is at least the target, and the slice with the target
inserted at `p` is sorted. -/
theorem FindInsertPosition_correct (arr : List Int) (target : Int) (fuel : Nat)
    (hs : arr.Pairwise (· ≤ ·)) (hfuel : arr.length < fuel) :
    ∃ p, FindInsertPosition fuel arr target = .ok p ∧ 0 ≤ p ∧ p ≤ arr.length ∧
      (∀ i x, i < p → index arr i = some x → x ≤ target) ∧
      (∀ i x, p ≤ i → index arr i = some x → target ≤ x) ∧
      (arr.take p.toNat ++ target :: arr.drop p.toNat).Pairwise (· ≤ ·) := by
  have key : ∃ p, FindInsertPosition fuel arr target = .ok p ∧ 0 ≤ p ∧ p ≤ arr.length ∧
      (∀ i x, i < p → index arr i = some x → x ≤ target) ∧
      (∀ i x, p ≤ i → index arr i = some x → target ≤ x) := by
    unfold FindInsertPosition
    by_cases hlen : arr.length = 0
    · simp only [hlen, if_true]
      refine ⟨0, rfl, le_refl 0, by omega, ?_, ?_⟩
      · intro i x hi hx
        have := (index_eq_some hx).1
        omega
      · intro i x hi hx
        have := (index_eq_some hx).2.1
        omega
    · simp only [hlen, if_false]
      apply FindInsertPosition_loop_spec arr target hs fuel 0 _ 0 (le_refl 0) (by omega)
        (by omega) (by omega)
      · intro i x hi hx
        have := (index_eq_some hx).1
        omega
      · intro i x hi hx
        have := (index_eq_some hx).2.1
        omega
  obtain ⟨p, hp, hp0, hp1, hbefore, hafter⟩ := key
  refine ⟨p, hp, hp0, hp1, hbefore, hafter, ?_⟩
  rw [List.pairwise_append]
  refine ⟨hs.sublist (List.take_sublist _ _), ?_, ?_⟩
  · rw [List.pairwise_cons]
    refine ⟨?_, hs.sublist (List.drop_sublist _ _)⟩
    intro b hb
    obtain ⟨i, hi, hx⟩ := mem_drop_index hb
    exact hafter i b (by omega) hx
  · intro a ha b hb
    obtain ⟨i, hi, hx⟩ := mem_take_index ha
    have hat : a ≤ target := hbefore i a (by omega) hx
    rcases List.mem_cons.1 hb with hbt | hbd
    · rw [hbt]
      exact hat
    · obtain ⟨j, hj, hy⟩ := mem_drop_index hbd
      exact le_trans hat (hafter j b (by omega) hy)

/-- Witness for C14: the slice of `main` and the target 8. -/
theorem FindInsertPosition_correct_witness :
    ∃ p, FindInsertPosition 11 [1, 3, 5, 7, 9, 11, 13, 15, 17, 19] 8 = .ok p ∧ 0 ≤ p ∧
      p ≤ ([1, 3, 5, 7, 9, 11, 13, 15, 17, 19] : List Int).length ∧
      (∀ i x, i < p → index [1, 3, 5, 7, 9, 11, 13, 15, 17, 19] i = some x → x ≤ 8) ∧
      (∀ i x, p ≤ i → index [1, 3, 5, 7, 9, 11, 13, 15, 17, 19] i = some x → 8 ≤ x) ∧
      (([1, 3, 5, 7, 9, 11, 13, 15, 17, 19] : List Int).take p.toNat ++
          8 :: ([1, 3, 5, 7, 9, 11, 13, 15, 17, 19] : List Int).drop p.toNat).Pairwise
        (· ≤ ·) :=
  FindInsertPosition_correct [1, 3, 5, 7, 9, 11, 13, 15, 17, 19] 8 11 (by decide) (by decide)

end Challenge21

namespace Challenge10

/-! ## Challenge 10: shapes -/

/-- The comparison function of `SortByArea` answers 0, "equal", whenever the
first area is smaller than the second by less than one. -/
theorem comp_zero_of_close {A : Type} [LinearOrderedField A] [FloorRing A]
    (s1 s2 : Shape A) (h1 : s1.Area ≤ s2.Area) (h2 : s2.Area < s1.Area + 1) :
    comp true s1 s2 = 0 ∧ comp false s2 s1 = 0 := by
  have h : Int.ceil (s1.Area - s2.Area) = 0 := by
    rw [Int.ceil_eq_iff]
    constructor
    · have : s2.Area - s1.Area < 1 := by linarith
      simp only [Int.cast_zero, zero_sub]
      linarith
    · simp only [Int.cast_zero]
      linarith
  simp [comp, h]

theorem ceil_small_neg : Int.ceil ((6 / 5 : ℚ) - 3 / 2) = 0 := by
  rw [Int.ceil_eq_iff]
  constructor <;> norm_num

/-- C16, as the code behaves on two rectangles of areas 1.5 and 1.2: asked for
ascending order, `SortByArea` returns them as they came, 1.5 before 1.2, which
is not non-decreasing; asked for descending order on 1.2 and 1.5, it returns
1.2 before 1.5, which is not non-increasing. -/
theorem SortByArea_leaves_unsorted :
    (SortByArea insertionSortCmpFunc [strip (3 / 2), strip (6 / 5)] true).map Shape.Area
      = [3 / 2, 6 / 5] ∧
    ¬ ((SortByArea insertionSortCmpFunc [strip (3 / 2), strip (6 / 5)] true).map
        Shape.Area).Pairwise (· ≤ ·) ∧
    (SortByArea insertionSortCmpFunc [strip (6 / 5), strip (3 / 2)] false).map Shape.Area
      = [6 / 5, 3 / 2] ∧
    ¬ ((SortByArea insertionSortCmpFunc [strip (6 / 5), strip (3 / 2)] false).map
        Shape.Area).Pairwise (· ≥ ·) := by
  have h1 : (SortByArea insertionSortCmpFunc [strip (3 / 2), strip (6 / 5)] true).map
      Shape.Area = [3 / 2, 6 / 5] := by
    simp [SortByArea, insertionSortCmpFunc, insertBefore, comp, strip, Rectangle.toShape,
      Rectangle.Area, ceil_small_neg]
  have h2 : (SortByArea insertionSortCmpFunc [strip (6 / 5), strip (3 / 2)] false).map
      Shape.Area = [6 / 5, 3 / 2] := by
    simp [SortByArea, insertionSortCmpFunc, insertBefore, comp, strip, Rectangle.toShape,
      Rectangle.Area, ceil_small_neg]
  refine ⟨h1, ?_, h2, ?_⟩
  · rw [h1]
    norm_num
  · rw [h2]
    norm_num

theorem F64.num_lt_num {A : Type} [LT A] (x y : A) :
    ((F64.num x : F64 A) < F64.num y) ↔ x < y :=
  Iff.rfl

theorem F64.num_le_num {A : Type} [LE A] (x y : A) :
    ((F64.num x : F64 A) ≤ F64.num y) ↔ x ≤ y :=
  Iff.rfl

/-- A `float64` that is not NaN is a number. -/
theorem F64.eq_num {A : Type} {a : F64 A} (h : a ≠ .nan) : ∃ x, a = .num x := by
  cases a with
  | nan => exact absurd rfl h
  | num x => exact ⟨x, rfl⟩

/-- The loop of `LargestShape` after the elements `pre`, with `largest` the
first of them of the largest area, run over the remaining elements `rest`, when
no area is NaN. -/
theorem LargestShape_loop {A : Type} [LinearOrder A] :
    ∀ (rest pre : List (Shape (F64 A))) (largest : Shape (F64 A)) (i : Nat),
      (∀ t ∈ pre ++ rest, t.Area ≠ .nan) →
      pre[i]? = some largest →
      (∀ t ∈ pre, t.Area ≤ largest.Area) →
      (∀ (j : Nat) (t : Shape (F64 A)), j < i → pre[j]? = some t →
        t.Area < largest.Area) →
      ∃ k : Nat,
        (pre ++ rest)[k]? =
          some (rest.foldl (fun largest s => if largest.Area < s.Area then s else largest)
            largest) ∧
        (∀ t ∈ pre ++ rest,
          t.Area ≤ (rest.foldl (fun largest s => if largest.Area < s.Area then s else largest)
            largest).Area) ∧
        (∀ (j : Nat) (t : Shape (F64 A)), j < k → (pre ++ rest)[j]? = some t →
          t.Area < (rest.foldl (fun largest s => if largest.Area < s.Area then s else largest)
            largest).Area) := by
  intro rest
  induction rest with
  | nil =>
    intro pre largest i _ hi hmax hfirst
    exact ⟨i, by simpa using hi, by simpa using hmax, by simpa using hfirst⟩
  | cons s rest ih =>
    intro pre largest i hnum hi hmax hfirst
    have hilt : i < pre.length := by
      by_contra hge
      rw [List.getElem?_eq_none (Nat.le_of_not_lt hge)] at hi
      cases hi
    have happ : pre ++ s :: rest = (pre ++ [s]) ++ rest := by simp
    have hnum1 : ∀ t ∈ (pre ++ [s]) ++ rest, t.Area ≠ F64.nan := by
      rw [← happ]
      exact hnum
    obtain ⟨x, hx⟩ := F64.eq_num (hnum largest (List.mem_append_left _ (List.getElem?_mem hi)))
    obtain ⟨y, hy⟩ := F64.eq_num (hnum s (by simp))
    rw [happ, List.foldl_cons]
    by_cases hlt : largest.Area < s.Area
    · simp only [hlt, if_true]
      have hxy : x < y := by
        rw [hx, hy] at hlt
        exact hlt
      apply ih (pre ++ [s]) s pre.length hnum1
      · simp
      · intro t ht
        rcases List.mem_append.1 ht with h | h
        · obtain ⟨z, hz⟩ := F64.eq_num (hnum t (List.mem_append_left _ h))
          have hzx := hmax t h
          rw [hz, hx, F64.num_le_num] at hzx
          rw [hz, hy, F64.num_le_num]
          exact le_trans hzx (le_of_lt hxy)
        · simp only [List.mem_singleton] at h
          rw [h, hy, F64.num_le_num]
      · intro j t hj ht
        rw [List.getElem?_append_left hj] at ht
        have htm := List.getElem?_mem ht
        obtain ⟨z, hz⟩ := F64.eq_num (hnum t (List.mem_append_left _ htm))
        have hzx := hmax t htm
        rw [hz, hx, F64.num_le_num] at hzx
        rw [hz, hy, F64.num_lt_num]
        exact lt_of_le_of_lt hzx hxy
    · simp only [hlt, if_false]
      have hyx : y ≤ x := by
        rw [hx, hy, F64.num_lt_num] at hlt
        exact not_lt.1 hlt
      apply ih (pre ++ [s]) largest i hnum1
      · rw [List.getElem?_append_left hilt]
        exact hi
      · intro t ht
        rcases List.mem_append.1 ht with h | h
        · exact hmax t h
        · simp only [List.mem_singleton] at h
          rw [h, hx, hy, F64.num_le_num]
          exact hyx
      · intro j t hj ht
        rw [List.getElem?_append_left (by omega)] at ht
        exact hfirst j t hj ht

/-- C18, for areas that are numbers: on a slice that is not empty and in which
no area is NaN,
`LargestShape` returns an element of the slice whose area is at least the area
of every element, and it is the first such element: every element before it
has a smaller area. -/
theorem LargestShape_correct {A : Type} [LinearOrder A] (shapes : List (Shape (F64 A)))
    (hne : shapes ≠ []) (hnum : ∀ t ∈ shapes, t.Area ≠ .nan) :
    ∃ (s : Shape (F64 A)) (k : Nat), LargestShape shapes = some s ∧ shapes[k]? = some s ∧
      (∀ t ∈ shapes, t.Area ≤ s.Area) ∧
      (∀ (j : Nat) (t : Shape (F64 A)), j < k → shapes[j]? = some t →
        t.Area < s.Area) := by
  cases shapes with
  | nil => exact absurd rfl hne
  | cons s0 tl =>
    obtain ⟨x, hx⟩ := F64.eq_num (hnum s0 (List.mem_cons_self _ _))
    have hirr : ¬ s0.Area < s0.Area := by
      rw [hx, F64.num_lt_num]
      exact lt_irrefl x
    obtain ⟨k, h1, h2, h3⟩ := LargestShape_loop tl [s0] s0 0 hnum rfl
      (by
        intro t ht
        simp only [List.mem_singleton] at ht
        rw [ht, hx, F64.num_le_num])
      (by intro j t hj; omega)
    refine ⟨_, k, rfl, ?_, ?_, ?_⟩
    · simpa [List.foldl_cons, hirr] using h1
    · simpa [List.foldl_cons, hirr] using h2
    · simpa [List.foldl_cons, hirr] using h3

/-- Witness for C18: of the rectangles of areas 2, 5, 3, 5 the first of area 5
is returned. -/
theorem LargestShape_correct_witness :
    ∃ (s : Shape (F64 Int)) (k : Nat),
      LargestShape [stripF 2, stripF 5, stripF 3, stripF 5] = some s ∧
      [stripF 2, stripF 5, stripF 3, stripF 5][k]? = some s ∧
      (∀ t ∈ [stripF 2, stripF 5, stripF 3, stripF 5], t.Area ≤ s.Area) ∧
      (∀ (j : Nat) (t : Shape (F64 Int)), j < k →
        [stripF 2, stripF 5, stripF 3, stripF 5][j]? = some t → t.Area < s.Area) :=
  LargestShape_correct [stripF 2, stripF 5, stripF 3, stripF 5] (by simp)
    (by
      intro t ht
      simp only [List.mem_cons, List.mem_singleton, List.not_mem_nil, or_false] at ht
      rcases ht with h | h | h | h <;> rw [h] <;> decide)

/-- C18 fails when an area is NaN, as on `[Rectangle{NaN, 1}, Rectangle{5, 1}]`,
two rectangles that `NewRectangle` makes: `LargestShape` returns the first, whose
area NaN is not at least the area 5 of the second, so it returns no element
whose area is at least the area of every element. -/
theorem LargestShape_nan_not_largest :
    NewRectangle (F64.nan : F64 Int) (.num 1) = some { Width := .nan, Height := .num 1 } ∧
    NewRectangle (F64.num 5 : F64 Int) (.num 1) = some { Width := .num 5, Height := .num 1 } ∧
    LargestShape [stripNaN, stripF 5] = some stripNaN ∧
    stripNaN.Area = .nan ∧ (stripF 5).Area = .num 5 ∧
    ¬ ((stripF 5).Area ≤ stripNaN.Area) ∧
    ¬ ∃ s, LargestShape [stripNaN, stripF 5] = some s ∧
        ∀ t ∈ [stripNaN, stripF 5], t.Area ≤ s.Area := by
  refine ⟨rfl, rfl, rfl, rfl, rfl, by decide, ?_⟩
  rintro ⟨s, hs, hall⟩
  have h5 := hall (stripF 5) (by simp)
  have hs' : s = stripNaN := by
    have : LargestShape [stripNaN, stripF 5] = some stripNaN := rfl
    rw [this] at hs
    cases hs
    rfl
  rw [hs'] at h5
  exact absurd h5 (by decide)

/-- On the empty slice `LargestShape` panics. -/
theorem LargestShape_empty {A : Type} [LinearOrder A] :
    LargestShape ([] : List (Shape (F64 A))) = none :=
  rfl

end Challenge10

namespace Challenge6

/-! ## Challenge 6: word frequency -/

/-- On the input of the doc comment the function returns the documented map,
which is the reference count of that input. -/
theorem CountWordFrequency_documented_example :
    CountWordFrequency "The quick brown fox jumps over the lazy dog."
      = [("the", 2), ("quick", 1), ("brown", 1), ("fox", 1), ("jumps", 1), ("over", 1),
         ("lazy", 1), ("dog", 1)] ∧
    referenceCount "The quick brown fox jumps over the lazy dog."
      = [("the", 2), ("quick", 1), ("brown", 1), ("fox", 1), ("jumps", 1), ("over", 1),
         ("lazy", 1), ("dog", 1)] := by
  decide

/-- C17, as the code behaves: on "yes ... no" the result has an entry for the
empty word, which is no run of letters and digits; on "hello,world" it has the
one word "helloworld" where the reference count has "hello" and "world"; on
"a_b" it has the word "a_b" where the reference count has "a" and "b". -/
theorem CountWordFrequency_differs_from_reference :
    CountWordFrequency "yes ... no" = [("yes", 1), ("", 1), ("no", 1)] ∧
    referenceCount "yes ... no" = [("yes", 1), ("no", 1)] ∧
    CountWordFrequency "hello,world" = [("helloworld", 1)] ∧
    referenceCount "hello,world" = [("hello", 1), ("world", 1)] ∧
    CountWordFrequency "a_b" = [("a_b", 1)] ∧
    referenceCount "a_b" = [("a", 1), ("b", 1)] := by
  decide

end Challenge6

namespace Challenge4

/-! ## Challenge 4: breadth-first search -/

theorem PathLen_zero {graph : List (Int × List Int)} {q x : Int}
    (h : PathLen graph q 0 x) : x = q := by
  cases h
  rfl

theorem Dist_unique {graph : List (Int × List Int)} {q v : Int} {d1 d2 : Nat}
    (h1 : Dist graph q v d1) (h2 : Dist graph q v d2) : d1 = d2 :=
  Nat.le_antisymm (h1.2 d2 h2.1) (h2.2 d1 h1.1)

theorem Dist_exists {graph : List (Int × List Int)} {q v : Int} (h : Reach graph q v) :
    ∃ d, Dist graph q v d := by
  classical
  exact ⟨Nat.find h, Nat.find_spec h, fun n hn => Nat.find_min' h hn⟩

theorem Dist_self (graph : List (Int × List Int)) (q : Int) : Dist graph q q 0 :=
  ⟨PathLen.here, fun _ _ => Nat.zero_le _⟩

theorem Dist_edge {graph : List (Int × List Int)} {q u v : Int} {du dv : Nat}
    (hu : Dist graph q u du) (he : v ∈ neighbours graph u) (hv : Dist graph q v dv) :
    dv ≤ du + 1 :=
  hv.2 _ (PathLen.edge hu.1 he)

theorem Dist_pred {graph : List (Int × List Int)} {q v : Int} {d : Nat}
    (hv : Dist graph q v (d + 1)) : ∃ u, Dist graph q u d ∧ v ∈ neighbours graph u := by
  obtain ⟨hp, hmin⟩ := hv
  cases hp with
  | edge hu he =>
    rename_i u
    obtain ⟨du, hdu⟩ := Dist_exists ⟨d, hu⟩
    have h1 : du ≤ d := hdu.2 d hu
    have h2 : d + 1 ≤ du + 1 := hmin _ (PathLen.edge hdu.1 he)
    have h3 : du = d := by omega
    subst h3
    exact ⟨u, hdu, he⟩

theorem weight_append_le (graph : List (Int × List Int)) (visited : List Int) (c : Int) :
    weight graph (visited ++ [c]) ≤ weight graph visited := by
  induction graph with
  | nil => simp [weight]
  | cons e rest ih =>
    obtain ⟨k, adj⟩ := e
    by_cases hk : k ∈ visited
    · simp [weight, hk, ih]
    · by_cases hc : k = c
      · subst hc
        simp [weight, hk]
        omega
      · simp [weight, hk, hc, ih]

theorem weight_visit (graph : List (Int × List Int)) (visited : List Int) (c : Int)
    (hc : c ∉ visited) :
    weight graph (visited ++ [c]) + (neighbours graph c).length ≤ weight graph visited := by
  induction graph with
  | nil => simp [weight, neighbours]
  | cons e rest ih =>
    obtain ⟨k, adj⟩ := e
    by_cases hkc : k = c
    · subst hkc
      have := weight_append_le rest visited k
      simp [weight, neighbours, hc]
      omega
    · by_cases hk : k ∈ visited
      · simp [weight, neighbours, hk, hkc, ih]
      · simp [weight, neighbours, hk, hkc]
        omega

theorem weight_nil (graph : List (Int × List Int)) :
    weight graph [] + 2 = enoughFuel graph := by
  induction graph with
  | nil => simp [weight, enoughFuel]
  | cons e rest ih =>
    obtain ⟨k, adj⟩ := e
    simp [weight, enoughFuel] at ih ⊢
    omega

/-- When the node at the head of the queue has distance `dc`, every node of
distance at most `dc` is among the nodes visited and queued. -/
theorem SearchInv_complete {graph : List (Int × List Int)} {q c : Int}
    {visited tail : List Int} (hinv : SearchInv graph q visited (c :: tail)) {dc : Nat}
    (hdc : Dist graph q c dc) :
    ∀ (d : Nat) (x : Int), d ≤ dc → Dist graph q x d → x ∈ visited ++ c :: tail := by
  intro d
  induction d with
  | zero =>
    intro x _ hx
    have hxq : x = q := PathLen_zero hx.1
    rw [hxq]
    exact List.mem_of_mem_head? hinv.first
  | succ d ih =>
    intro x hd hx
    obtain ⟨y, hy, hyx⟩ := Dist_pred hx
    have hyL := ih y (by omega) hy
    rcases List.mem_append.1 hyL with hyv | hyq
    · exact hinv.closed y hyv x hyx
    · exfalso
      rcases List.mem_cons.1 hyq with hyc | hyt
      · rw [hyc] at hy
        have := Dist_unique hy hdc
        omega
      · have hs := hinv.sorted
        rw [List.pairwise_append] at hs
        have hct := (List.pairwise_cons.1 hs.2.1).1 y hyt
        have := hct dc d hdc hy
        omega

theorem mem_nextNodes {graph : List (Int × List Int)} {c n : Int} {visited tail : List Int} :
    n ∈ (neighbours graph c).filter
        (fun n => !(c :: tail).contains n && !(visited ++ [c]).contains n) ↔
      n ∈ neighbours graph c ∧ n ∉ visited ++ c :: tail := by
  simp only [List.mem_filter, Bool.and_eq_true, Bool.not_eq_true', List.contains,
    List.elem_eq_mem, decide_eq_false_iff_not, List.mem_cons, List.mem_append,
    List.mem_singleton]
  tauto

/-- One iteration of the search loop keeps the invariant. -/
theorem SearchInv_iteration {graph : List (Int × List Int)} {q c : Int}
    {visited tail : List Int} (hinv : SearchInv graph q visited (c :: tail)) :
    SearchInv graph q (visited ++ [c])
      (tail ++ (neighbours graph c).filter
        (fun n => !(c :: tail).contains n && !(visited ++ [c]).contains n)) := by
  have hL : (visited ++ [c]) ++ (tail ++ (neighbours graph c).filter
      (fun n => !(c :: tail).contains n && !(visited ++ [c]).contains n))
      = (visited ++ c :: tail) ++ (neighbours graph c).filter
        (fun n => !(c :: tail).contains n && !(visited ++ [c]).contains n) := by simp
  have hcL : c ∈ visited ++ c :: tail := by simp
  obtain ⟨dc, hdc⟩ := Dist_exists (hinv.reach c hcL)
  -- every new node is one edge further than the current node
  have hnew : ∀ n ∈ (neighbours graph c).filter
      (fun n => !(c :: tail).contains n && !(visited ++ [c]).contains n),
      ∀ dn, Dist graph q n dn → dn = dc + 1 := by
    intro n hn dn hdn
    obtain ⟨hnc, hnL⟩ := mem_nextNodes.1 hn
    have h1 := Dist_edge hdc hnc hdn
    by_contra hne
    exact hnL (SearchInv_complete hinv hdc dn n (by omega) hdn)
  -- the nodes visited are not further than the current node
  have hvis : ∀ x ∈ visited, ∀ dx, Dist graph q x dx → dx ≤ dc := by
    intro x hx dx hdx
    have hs := hinv.sorted
    rw [List.pairwise_append] at hs
    exact hs.2.2 x hx c (by simp) dx dc hdx hdc
  -- the nodes queued are at most one edge further
  have hque : ∀ x ∈ c :: tail, ∀ dx, Dist graph q x dx → dx ≤ dc + 1 := by
    intro x hx dx hdx
    exact hinv.span c (by simp) x hx dc dx hdc hdx
  have htail : ∀ x ∈ tail, ∀ dx, Dist graph q x dx → dc ≤ dx := by
    intro x hx dx hdx
    have hs := hinv.sorted
    rw [List.pairwise_append] at hs
    exact (List.pairwise_cons.1 hs.2.1).1 x hx dc dx hdc hdx
  constructor
  · rw [hL, List.head?_append_of_ne_nil _ (by simp)]
    exact hinv.first
  · intro x hx
    rw [hL] at hx
    rcases List.mem_append.1 hx with h | h
    · exact hinv.reach x h
    · obtain ⟨n, hpc⟩ := hinv.reach c hcL
      exact ⟨n + 1, PathLen.edge hpc (mem_nextNodes.1 h).1⟩
  · rw [hL, List.pairwise_append]
    refine ⟨hinv.sorted, ?_, ?_⟩
    · apply List.pairwise_of_forall_mem_list
      intro u hu v hv du dv hdu hdv
      rw [hnew u hu du hdu, hnew v hv dv hdv]
    · intro x hx n hn dx dn hdx hdn
      rw [hnew n hn dn hdn]
      rcases List.mem_append.1 hx with h | h
      · have := hvis x h dx hdx
        omega
      · exact hque x h dx hdx
  · intro h hh x hx dh dx hdh hdx
    have hhq : h ∈ tail ++ (neighbours graph c).filter
        (fun n => !(c :: tail).contains n && !(visited ++ [c]).contains n) :=
      List.mem_of_mem_head? hh
    have hdh' : dc ≤ dh := by
      rcases List.mem_append.1 hhq with h1 | h1
      · exact htail h h1 dh hdh
      · have := hnew h h1 dh hdh
        omega
    have hdx' : dx ≤ dc + 1 := by
      rcases List.mem_append.1 hx with h1 | h1
      · exact hque x (List.mem_cons_of_mem _ h1) dx hdx
      · have := hnew x h1 dx hdx
        omega
    omega
  · intro u hu v hv
    rw [hL]
    rcases List.mem_append.1 hu with h | h
    · exact List.mem_append_left _ (hinv.closed u h v hv)
    · simp only [List.mem_singleton] at h
      rw [h] at hv
      by_cases hvL : v ∈ visited ++ c :: tail
      · exact List.mem_append_left _ hvL
      · exact List.mem_append_right _ (mem_nextNodes.2 ⟨hv, hvL⟩)

/-- With fuel above the length of the queue plus the weight of the nodes not
yet visited, the search loop ends, and the invariant holds for the slice it
returns and the empty queue. -/
theorem searchLoop_spec (graph : List (Int × List Int)) (q : Int) :
    ∀ (fuel : Nat) (visited queue : List Int), SearchInv graph q visited queue →
      queue.length + weight graph visited < fuel →
      ∃ path, searchLoop graph fuel visited queue = some path ∧
        SearchInv graph q path [] := by
  intro fuel
  induction fuel with
  | zero =>
    intro visited queue _ hf
    omega
  | succ fuel ih =>
    intro visited queue hinv hf
    cases queue with
    | nil => exact ⟨visited, rfl, hinv⟩
    | cons c tail =>
      simp only [searchLoop]
      apply ih _ _ (SearchInv_iteration hinv)
      simp only [List.length_append, List.length_cons] at hf ⊢
      by_cases hc : c ∈ visited
      · -- a node visited before adds nothing to the queue
        have hnone : (neighbours graph c).filter
            (fun n => !(c :: tail).contains n && !(visited ++ [c]).contains n) = [] := by
          rw [List.filter_eq_nil_iff]
          intro n hn
          have hnL := hinv.closed c hc n hn
          simp only [List.mem_append, List.mem_cons] at hnL
          simp only [Bool.and_eq_true, Bool.not_eq_true', List.contains, List.elem_eq_mem,
            decide_eq_false_iff_not, List.mem_cons, List.mem_append, List.mem_singleton]
          tauto
        have := weight_append_le graph visited c
        rw [hnone]
        simp only [List.length_nil]
        omega
      · have h1 := weight_visit graph visited c hc
        have h2 := List.length_filter_le
          (fun n => !(c :: tail).contains n && !(visited ++ [c]).contains n)
          (neighbours graph c)
        omega

/-- In the order of a sorted slice, an earlier node is not further than a
later one. -/
theorem DistLe_of_index {graph : List (Int × List Int)} {q : Int} {path : List Int}
    (hs : path.Pairwise (DistLe graph q)) {i j : Nat} {u v : Int} (hij : i ≤ j)
    (hu : path[i]? = some u) (hv : path[j]? = some v) : DistLe graph q u v := by
  by_cases he : i = j
  · subst he
    rw [hu] at hv
    cases hv
    intro du dv hdu hdv
    exact le_of_eq (Dist_unique hdu hdv)
  · have hilt : i < path.length := by
      by_contra hge
      rw [List.getElem?_eq_none (Nat.le_of_not_lt hge)] at hu
      cases hu
    have hjlt : j < path.length := by
      by_contra hge
      rw [List.getElem?_eq_none (Nat.le_of_not_lt hge)] at hv
      cases hv
    rw [List.getElem?_eq_getElem hilt] at hu
    rw [List.getElem?_eq_getElem hjlt] at hv
    cases hu
    cases hv
    exact List.pairwise_iff_getElem.1 hs i j hilt hjlt (by omega)

/-- The search of one query: with enough fuel it ends, and the slice it returns
starts with the query node, holds exactly the nodes that can be reached from
it, and lists them in non-decreasing order of their distance from it. -/
theorem search_correct (graph : List (Int × List Int)) (q : Int) (fuel : Nat)
    (hfuel : enoughFuel graph ≤ fuel) :
    ∃ path, search graph fuel q = some { Initial := q, Path := path } ∧
      path.head? = some q ∧
      (∀ v, v ∈ path ↔ Reach graph q v) ∧
      (∀ (i j : Nat) (u v : Int) (du dv : Nat), i ≤ j → path[i]? = some u →
        path[j]? = some v → Dist graph q u du → Dist graph q v dv → du ≤ dv) := by
  have hstart : SearchInv graph q [] [q] := by
    constructor
    · rfl
    · intro x hx
      simp only [List.nil_append, List.mem_singleton] at hx
      rw [hx]
      exact ⟨0, PathLen.here⟩
    · simp
    · intro h _ x hx dh dx hdh hdx
      simp only [List.mem_singleton] at hx
      have hh : h = q := by simp_all
      rw [hx] at hdx
      rw [hh] at hdh
      have := Dist_unique hdh hdx
      omega
    · intro u hu
      cases hu
  have hw := weight_nil graph
  obtain ⟨path, hpath, hinv⟩ := searchLoop_spec graph q fuel [] [q] hstart
    (by simp only [List.length_singleton]; omega)
  have hq : q ∈ path := by
    have := hinv.first
    rw [List.append_nil] at this
    exact List.mem_of_mem_head? this
  refine ⟨path, by simp [search, hpath], by simpa using hinv.first, ?_, ?_⟩
  · intro v
    constructor
    · intro hv
      exact hinv.reach v (by simpa using hv)
    · rintro ⟨n, hn⟩
      induction hn with
      | here => exact hq
      | edge _ he ih => simpa using hinv.closed _ ih _ he
  · intro i j u v du dv hij hu hv hdu hdv
    have hs := hinv.sorted
    rw [List.append_nil] at hs
    exact DistLe_of_index hs hij hu hv du dv hdu hdv

theorem search_initial {graph : List (Int × List Int)} {fuel : Nat} {q : Int} {r : BFSPath}
    (h : search graph fuel q = some r) : r.Initial = q := by
  unfold search at h
  split at h
  · cases h
  · cases h
    rfl

theorem workers_set_get {ws : List Worker} {i : Nat} {w0 : Worker} (w : Worker) (j : Nat)
    (hi : ws[i]? = some w0) : (ws.set i w)[j]? = if j = i then some w else ws[j]? := by
  have hlt : i < ws.length := by
    by_contra hge
    rw [List.getElem?_eq_none (Nat.le_of_not_lt hge)] at hi
    cases hi
  by_cases h : j = i
  · subst h
    simp [List.getElem?_set, hlt]
  · have h2 : ¬ i = j := fun e => h e.symm
    simp [List.getElem?_set, h, h2]

/-- Every step of a goroutine keeps the invariant of the run, when every search
ends within the fuel. -/
theorem RunInv_step {graph : List (Int × List Int)} {fuel : Nat} {queries : List Int}
    {s : Run} (hinv : RunInv graph fuel queries s)
    (hs : ∀ q, ∃ r, search graph fuel q = some r) (a : Actor) :
    RunInv graph fuel queries (s.step graph fuel a) := by
  cases a with
  | caller =>
    cases hts : s.toSend with
    | nil =>
      simp only [Run.step, hts]
      exact
        { output_good := hinv.output_good
          sending_good := hinv.sending_good
          toSend_sub := by simp [hts]
          chan_sub := hinv.chan_sub
          covered := by simpa [hts] using hinv.covered
          closed_sent := fun _ => rfl
          returned_drained := fun i hi => ⟨rfl, (hinv.returned_drained i hi).2⟩ }
    | cons query rest =>
      simp only [Run.step, hts]
      have hnc : s.closed = false := by
        cases hc : s.closed with
        | false => rfl
        | true =>
          have := hinv.closed_sent hc
          rw [hts] at this
          cases this
      exact
        { output_good := hinv.output_good
          sending_good := hinv.sending_good
          toSend_sub := fun q hq => hinv.toSend_sub q (by rw [hts]; exact List.mem_cons_of_mem _ hq)
          chan_sub := by
            intro q hq
            rcases List.mem_append.1 hq with h | h
            · exact hinv.chan_sub q h
            · simp only [List.mem_singleton] at h
              rw [h]
              exact hinv.toSend_sub query (by rw [hts]; exact List.mem_cons_self _ _)
          covered := by
            intro q hq
            rcases hinv.covered q hq with h | h | h | h
            · rw [hts] at h
              rcases List.mem_cons.1 h with h1 | h1
              · right; left
                rw [h1]
                simp
              · left
                exact h1
            · right; left
              exact List.mem_append_left _ h
            · right; right; left
              exact h
            · right; right; right
              exact h
          closed_sent := by
            intro hc
            simp only [hnc] at hc
            cases hc
          returned_drained := by
            intro i hi
            have := (hinv.returned_drained i hi).1
            rw [hnc] at this
            cases this }
  | worker i =>
    cases hw : s.workers[i]? with
    | none =>
      simp only [Run.step, hw]
      exact hinv
    | some w =>
      cases w with
      | searching =>
        simp only [Run.step, hw]
        exact hinv
      | returned =>
        simp only [Run.step, hw]
        exact hinv
      | sending result =>
        simp only [Run.step, hw]
        obtain ⟨hg1, hg2⟩ := hinv.sending_good i result hw
        exact
          { output_good := by
              intro r hr
              rcases List.mem_append.1 hr with h | h
              · exact hinv.output_good r h
              · simp only [List.mem_singleton] at h
                rw [h]
                exact ⟨hg1, hg2⟩
            sending_good := by
              intro j r hj
              rw [workers_set_get _ j hw] at hj
              by_cases hji : j = i
              · simp [hji] at hj
              · simp only [hji, if_false] at hj
                exact hinv.sending_good j r hj
            toSend_sub := hinv.toSend_sub
            chan_sub := hinv.chan_sub
            covered := by
              intro q hq
              rcases hinv.covered q hq with h | h | ⟨j, r, hj, hr⟩ | ⟨r, hr, hrq⟩
              · left; exact h
              · right; left; exact h
              · by_cases hji : j = i
                · right; right; right
                  rw [hji, hw] at hj
                  cases hj
                  exact ⟨result, by simp, hr⟩
                · right; right; left
                  exact ⟨j, r, by rw [workers_set_get _ j hw]; simp [hji, hj], hr⟩
              · right; right; right
                exact ⟨r, List.mem_append_left _ hr, hrq⟩
            closed_sent := hinv.closed_sent
            returned_drained := by
              intro j hj
              rw [workers_set_get _ j hw] at hj
              by_cases hji : j = i
              · simp [hji] at hj
              · simp only [hji, if_false] at hj
                exact hinv.returned_drained j hj }
      | receiving =>
        cases hq : s.queriesChan with
        | nil =>
          cases hc : s.closed with
          | false =>
            simp only [Run.step, hw, hq, hc]
            exact hinv
          | true =>
            simp only [Run.step, hw, hq, hc, if_true]
            exact
              { output_good := hinv.output_good
                sending_good := by
                  intro j r hj
                  rw [workers_set_get _ j hw] at hj
                  by_cases hji : j = i
                  · simp [hji] at hj
                  · simp only [hji, if_false] at hj
                    exact hinv.sending_good j r hj
                toSend_sub := hinv.toSend_sub
                chan_sub := by
                  intro q h
                  cases h
                covered := by
                  intro q hqq
                  rcases hinv.covered q hqq with h | h | ⟨j, r, hj, hr⟩ | h
                  · left; exact h
                  · rw [hq] at h
                    cases h
                  · right; right; left
                    have hji : j ≠ i := by
                      intro e
                      rw [e, hw] at hj
                      cases hj
                    exact ⟨j, r, by rw [workers_set_get _ j hw]; simp [hji, hj], hr⟩
                  · right; right; right; exact h
                closed_sent := fun _ => hinv.closed_sent hc
                returned_drained := fun _ _ => ⟨rfl, rfl⟩ }
        | cons initialNode rest =>
          obtain ⟨result, hres⟩ := hs initialNode
          have hri := search_initial hres
          simp only [Run.step, hw, hq, hres]
          have hnoret : ∀ j : Nat, s.workers[j]? ≠ some .returned := by
            intro j hj
            have := (hinv.returned_drained j hj).2
            rw [hq] at this
            cases this
          exact
            { output_good := hinv.output_good
              sending_good := by
                intro j r hj
                rw [workers_set_get _ j hw] at hj
                by_cases hji : j = i
                · simp only [hji, if_true] at hj
                  cases hj
                  refine ⟨by rw [hri]; exact hres, ?_⟩
                  rw [hri]
                  exact hinv.chan_sub initialNode (by rw [hq]; exact List.mem_cons_self _ _)
                · simp only [hji, if_false] at hj
                  exact hinv.sending_good j r hj
              toSend_sub := hinv.toSend_sub
              chan_sub := fun q hqq =>
                hinv.chan_sub q (by rw [hq]; exact List.mem_cons_of_mem _ hqq)
              covered := by
                intro q hqq
                rcases hinv.covered q hqq with h | h | ⟨j, r, hj, hr⟩ | h
                · left; exact h
                · rw [hq] at h
                  rcases List.mem_cons.1 h with h1 | h1
                  · right; right; left
                    exact ⟨i, result, by rw [workers_set_get _ i hw]; simp, by rw [hri, h1]⟩
                  · right; left; exact h1
                · right; right; left
                  have hji : j ≠ i := by
                    intro e
                    rw [e, hw] at hj
                    cases hj
                  exact ⟨j, r, by rw [workers_set_get _ j hw]; simp [hji, hj], hr⟩
                · right; right; right; exact h
              closed_sent := hinv.closed_sent
              returned_drained := by
                intro j hj
                rw [workers_set_get _ j hw] at hj
                by_cases hji : j = i
                · simp [hji] at hj
                · simp only [hji, if_false] at hj
                  exact absurd hj (hnoret j) }

/-- The invariant holds along every schedule. -/
theorem RunInv_run {graph : List (Int × List Int)} {fuel : Nat} {queries : List Int}
    (hs : ∀ q, ∃ r, search graph fuel q = some r) (schedule : List Actor) :
    ∀ s : Run, RunInv graph fuel queries s →
      RunInv graph fuel queries (schedule.foldl (Run.step graph fuel) s) := by
  induction schedule with
  | nil => intro s h; exact h
  | cons a rest ih =>
    intro s h
    exact ih _ (RunInv_step h hs a)

theorem lookup_assign (result : List (Int × List Int)) (key k : Int) (path : List Int) :
    lookup (assign result key path) k = if k = key then some path else lookup result k := by
  induction result with
  | nil =>
    by_cases h : k = key
    · simp [assign, lookup, h]
    · have h2 : ¬ key = k := fun e => h e.symm
      simp [assign, lookup, h, h2]
  | cons e rest ih =>
    obtain ⟨k0, p0⟩ := e
    by_cases h0 : k0 = key
    · subst h0
      by_cases h : k = k0
      · simp [assign, lookup, h]
      · have h2 : ¬ k0 = k := fun e => h e.symm
        simp [assign, lookup, h, h2]
    · by_cases h : k = key
      · subst h
        simp [assign, lookup, h0, ih]
      · by_cases h1 : k0 = k
        · subst h1
          simp [assign, lookup, h0]
        · simp [assign, lookup, h0, h1, ih, h]

/-- The map that the collecting loop builds from results that are all results
of searches: the key `k` is there exactly when some result starts at `k`, and
its value is then the path of the search from `k`. -/
theorem lookup_collect {graph : List (Int × List Int)} {fuel : Nat} (k : Int) :
    ∀ (output : List BFSPath) (result : List (Int × List Int)),
      (∀ r ∈ output, search graph fuel r.Initial = some r) →
      lookup (output.foldl (fun result queryResult =>
          assign result queryResult.Initial queryResult.Path) result) k
        = if ∃ r ∈ output, r.Initial = k then
            (search graph fuel k).map (fun r => r.Path)
          else lookup result k := by
  intro output
  induction output with
  | nil => intro result _; simp
  | cons r rest ih =>
    intro result hgood
    rw [List.foldl_cons, ih _ (fun x hx => hgood x (List.mem_cons_of_mem _ hx))]
    by_cases hrest : ∃ x ∈ rest, x.Initial = k
    · have : ∃ x ∈ r :: rest, x.Initial = k := by
        obtain ⟨x, hx, hxk⟩ := hrest
        exact ⟨x, List.mem_cons_of_mem _ hx, hxk⟩
      simp only [hrest, this, if_true]
    · simp only [hrest, if_false, lookup_assign]
      by_cases hrk : r.Initial = k
      · have : ∃ x ∈ r :: rest, x.Initial = k := ⟨r, List.mem_cons_self _ _, hrk⟩
        have hg := hgood r (List.mem_cons_self _ _)
        rw [hrk] at hg
        rw [if_pos this, if_pos hrk.symm, hg]
        rfl
      · have : ¬ ∃ x ∈ r :: rest, x.Initial = k := by
          rintro ⟨x, hx, hxk⟩
          rcases List.mem_cons.1 hx with h | h
          · rw [h] at hxk
            exact hrk hxk
          · exact hrest ⟨x, h, hxk⟩
        have hkr : ¬ k = r.Initial := fun e => hrk e.symm
        rw [if_neg this, if_neg hkr]

theorem run_caller (graph : List (Int × List Int)) (fuel : Nat) (ws : List Worker)
    (out : List BFSPath) :
    ∀ (toSend chan : List Int),
      (List.replicate (toSend.length + 1) Actor.caller).foldl (Run.step graph fuel)
          { toSend := toSend, queriesChan := chan, closed := false, workers := ws,
            output := out }
        = { toSend := [], queriesChan := chan ++ toSend, closed := true, workers := ws,
            output := out } := by
  intro toSend
  induction toSend with
  | nil =>
    intro chan
    simp [List.replicate, Run.step]
  | cons q rest ih =>
    intro chan
    rw [List.length_cons, List.replicate_succ, List.foldl_cons]
    simp only [Run.step]
    rw [ih]
    simp

theorem run_worker0 (graph : List (Int × List Int)) (fuel : Nat) (wtail : List Worker)
    (hs : ∀ q, ∃ r, search graph fuel q = some r) :
    ∀ (chan : List Int) (out : List BFSPath),
      ∃ out1,
        (List.replicate (2 * chan.length + 1) (Actor.worker 0)).foldl (Run.step graph fuel)
            { toSend := [], queriesChan := chan, closed := true,
              workers := .receiving :: wtail, output := out }
          = { toSend := [], queriesChan := [], closed := true,
              workers := .returned :: wtail, output := out1 } := by
  intro chan
  induction chan with
  | nil =>
    intro out
    exact ⟨out, by simp [List.replicate, Run.step]⟩
  | cons q rest ih =>
    intro out
    obtain ⟨r, hr⟩ := hs q
    obtain ⟨out1, h1⟩ := ih (out ++ [r])
    refine ⟨out1, ?_⟩
    have hlen : 2 * (q :: rest).length + 1 = (2 * rest.length + 1) + 1 + 1 := by
      simp only [List.length_cons]
      omega
    rw [hlen, List.replicate_succ, List.replicate_succ, List.foldl_cons, List.foldl_cons]
    simp only [Run.step, List.getElem?_cons_zero, hr, List.set_cons_zero]
    exact h1

theorem run_return (graph : List (Int × List Int)) (fuel : Nat) (out : List BFSPath) :
    ∀ (todo done : List Worker), (∀ w ∈ todo, w = .receiving ∨ w = .returned) →
      ((List.range' done.length todo.length).map Actor.worker).foldl (Run.step graph fuel)
          { toSend := [], queriesChan := [], closed := true, workers := done ++ todo,
            output := out }
        = { toSend := [], queriesChan := [], closed := true,
            workers := done ++ List.replicate todo.length .returned, output := out } := by
  intro todo
  induction todo with
  | nil =>
    intro done _
    simp
  | cons w rest ih =>
    intro done hw
    have hget : (done ++ w :: rest)[done.length]? = some w := by
      rw [List.getElem?_append_right (le_refl _)]
      simp
    have hset : (done ++ w :: rest).set done.length .returned
        = (done ++ [.returned]) ++ rest := by simp
    have hrest : ∀ x ∈ rest, x = Worker.receiving ∨ x = Worker.returned :=
      fun x hx => hw x (List.mem_cons_of_mem _ hx)
    have hih := ih (done ++ [.returned]) hrest
    simp only [List.length_append, List.length_singleton] at hih
    rw [List.length_cons, List.range'_succ, List.map_cons, List.foldl_cons]
    rcases hw w (List.mem_cons_self _ _) with h | h
    · subst h
      simp only [Run.step, hget, if_true, hset]
      rw [hih]
      simp [List.replicate_succ]
    · subst h
      simp only [Run.step, hget]
      have : done ++ Worker.returned :: rest = (done ++ [.returned]) ++ rest := by simp
      rw [this, hih]
      simp [List.replicate_succ]

/-- With one worker or more, and fuel that lets every search end, the call
returns under the schedule `oneByOne`. -/
theorem ConcurrentBFSQueries_returns (graph : List (Int × List Int)) (queries : List Int)
    (numWorkers : Int) (fuel : Nat) (hw : 1 ≤ numWorkers)
    (hs : ∀ q, ∃ r, search graph fuel q = some r) :
    ∃ result, ConcurrentBFSQueries graph queries numWorkers fuel
      (oneByOne queries.length numWorkers.toNat) = some result := by
  obtain ⟨n, hn⟩ : ∃ n, numWorkers.toNat = n + 1 := ⟨numWorkers.toNat - 1, by omega⟩
  obtain ⟨out1, h1⟩ := run_worker0 graph fuel (List.replicate n .receiving) hs queries []
  have h0 := run_caller graph fuel (List.replicate (n + 1) .receiving) [] queries []
  have h2 := run_return graph fuel out1 (.returned :: List.replicate n .receiving) []
    (by
      intro w hw
      rcases List.mem_cons.1 hw with h | h
      · exact Or.inr h
      · exact Or.inl (List.eq_of_mem_replicate h))
  have hrep : List.replicate (n + 1) Worker.receiving
      = .receiving :: List.replicate n .receiving := List.replicate_succ _ _
  simp only [List.nil_append, List.length_nil, List.length_cons, List.length_replicate] at h0 h2
  rw [hrep] at h0
  have hrun : (oneByOne queries.length (n + 1)).foldl (Run.step graph fuel)
      { toSend := queries, queriesChan := [], closed := false,
        workers := .receiving :: List.replicate n .receiving, output := [] }
      = { toSend := [], queriesChan := [], closed := true,
          workers := List.replicate (n + 1) .returned, output := out1 } := by
    unfold oneByOne
    rw [List.foldl_append, List.foldl_append, h0, h1, h2]
  refine ⟨collect out1, ?_⟩
  simp only [ConcurrentBFSQueries, hn, hrep, hrun]
  simp

theorem step_workers_length (graph : List (Int × List Int)) (fuel : Nat) (s : Run)
    (a : Actor) : (s.step graph fuel a).workers.length = s.workers.length := by
  cases a with
  | caller =>
    cases hts : s.toSend <;> simp [Run.step, hts]
  | worker i =>
    cases hw : s.workers[i]? with
    | none => simp [Run.step, hw]
    | some w =>
      cases w with
      | searching => simp [Run.step, hw]
      | returned => simp [Run.step, hw]
      | sending result => simp [Run.step, hw]
      | receiving =>
        cases hq : s.queriesChan with
        | nil =>
          cases hc : s.closed <;> simp [Run.step, hw, hq, hc]
        | cons q rest =>
          cases hr : search graph fuel q <;> simp [Run.step, hw, hq, hr]

theorem run_workers_length (graph : List (Int × List Int)) (fuel : Nat)
    (schedule : List Actor) :
    ∀ s : Run, (schedule.foldl (Run.step graph fuel) s).workers.length = s.workers.length := by
  induction schedule with
  | nil => intro s; rfl
  | cons a rest ih =>
    intro s
    rw [List.foldl_cons, ih, step_workers_length]

/-- C15: with one worker or more and enough fuel for a search, the call
returns under some schedule; and under every schedule under which it returns,
the returned map has an entry for every node of `queries` and for no other key,
and the entry of a query `q` is a slice that starts with `q`, holds exactly the
nodes that can be reached from `q`, and lists them in non-decreasing order of
their distance from `q`. -/
theorem ConcurrentBFSQueries_correct (graph : List (Int × List Int)) (queries : List Int)
    (numWorkers : Int) (fuel : Nat) (hw : 1 ≤ numWorkers)
    (hfuel : enoughFuel graph ≤ fuel) :
    (∃ result, ConcurrentBFSQueries graph queries numWorkers fuel
      (oneByOne queries.length numWorkers.toNat) = some result) ∧
    ∀ (schedule : List Actor) (result : List (Int × List Int)),
      ConcurrentBFSQueries graph queries numWorkers fuel schedule = some result →
      (∀ k, (lookup result k).isSome = true ↔ k ∈ queries) ∧
      ∀ q ∈ queries, ∃ path, lookup result q = some path ∧ path.head? = some q ∧
        (∀ v, v ∈ path ↔ Reach graph q v) ∧
        (∀ (i j : Nat) (u v : Int) (du dv : Nat), i ≤ j → path[i]? = some u →
          path[j]? = some v → Dist graph q u du → Dist graph q v dv → du ≤ dv) := by
  have hs : ∀ q, ∃ r, search graph fuel q = some r := by
    intro q
    obtain ⟨path, hp, _⟩ := search_correct graph q fuel hfuel
    exact ⟨_, hp⟩
  refine ⟨ConcurrentBFSQueries_returns graph queries numWorkers fuel hw hs, ?_⟩
  intro schedule result hrun
  -- the invariant at the start of the run
  have hstart : RunInv graph fuel queries
      { toSend := queries, queriesChan := [], closed := false,
        workers := List.replicate numWorkers.toNat .receiving, output := [] } :=
    { output_good := by
        intro r hr
        cases hr
      sending_good := by
        intro i r hi
        rw [List.getElem?_replicate] at hi
        split at hi <;> cases hi
      toSend_sub := fun q hq => hq
      chan_sub := by
        intro q hq
        cases hq
      covered := fun q hq => Or.inl hq
      closed_sent := by
        intro hc
        cases hc
      returned_drained := by
        intro i hi
        rw [List.getElem?_replicate] at hi
        split at hi <;> cases hi }
  have hinv := RunInv_run hs schedule _ hstart
  have hlen := run_workers_length graph fuel schedule
    { toSend := queries, queriesChan := [], closed := false,
      workers := List.replicate numWorkers.toNat .receiving, output := [] }
  simp only [ConcurrentBFSQueries] at hrun
  generalize List.foldl (Run.step graph fuel)
    { toSend := queries, queriesChan := [], closed := false,
      workers := List.replicate numWorkers.toNat .receiving, output := [] } schedule
    = final at hrun hinv hlen
  split at hrun
  · rename_i hcond
    cases hrun
    simp only [Bool.and_eq_true, List.all_eq_true, beq_iff_eq] at hcond
    obtain ⟨hclosed, hall⟩ := hcond
    simp only [List.length_replicate] at hlen
    -- worker 0 has returned, so the channel is empty
    have h0 : final.workers[0]? = some .returned := by
      have hlt : 0 < final.workers.length := by omega
      rw [List.getElem?_eq_getElem hlt]
      exact congrArg some (hall _ (List.getElem_mem _))
    have hchan := (hinv.returned_drained 0 h0).2
    have hsent := hinv.closed_sent hclosed
    have hout : ∀ q ∈ queries, ∃ r ∈ final.output, r.Initial = q := by
      intro q hq
      rcases hinv.covered q hq with h | h | ⟨j, r, hj, _⟩ | h
      · rw [hsent] at h
        cases h
      · rw [hchan] at h
        cases h
      · have := hall _ (List.getElem?_mem hj)
        cases this
      · exact h
    have hlook : ∀ k, lookup (collect final.output) k
        = if ∃ r ∈ final.output, r.Initial = k then
            (search graph fuel k).map (fun r => r.Path)
          else none := by
      intro k
      exact lookup_collect k final.output [] (fun r hr => (hinv.output_good r hr).1)
    constructor
    · intro k
      rw [hlook k]
      constructor
      · intro h
        split at h
        · rename_i hex
          obtain ⟨r, hr, hrk⟩ := hex
          rw [← hrk]
          exact (hinv.output_good r hr).2
        · cases h
      · intro hk
        obtain ⟨r, hr⟩ := hs k
        simp [hout k hk, hr]
    · intro q hq
      obtain ⟨path, hp, hrest⟩ := search_correct graph q fuel hfuel
      refine ⟨path, ?_, hrest⟩
      rw [hlook q, if_pos (hout q hq), hp]
      rfl
  · cases hrun

/-- Witness for C15: the example graph with the queries 0 and 3 and two
workers, under the schedule `oneByOne` and under a schedule in which the two
workers take turns and the result of the query 3 arrives first. -/
theorem ConcurrentBFSQueries_correct_witness :
    (∃ result, ConcurrentBFSQueries exampleGraph [0, 3] 2 (enoughFuel exampleGraph)
      (oneByOne 2 2) = some result) ∧
    (∀ k, (lookup [(3, [3, 4]), (0, [0, 1, 2, 3, 4])] k).isSome = true ↔ k ∈ [0, 3]) ∧
    ∀ q ∈ [0, 3], ∃ path, lookup [(3, [3, 4]), (0, [0, 1, 2, 3, 4])] q = some path ∧
      path.head? = some q ∧
      (∀ v, v ∈ path ↔ Reach exampleGraph q v) ∧
      (∀ (i j : Nat) (u v : Int) (du dv : Nat), i ≤ j → path[i]? = some u →
        path[j]? = some v → Dist exampleGraph q u du → Dist exampleGraph q v dv →
        du ≤ dv) :=
  ⟨(ConcurrentBFSQueries_correct exampleGraph [0, 3] 2 (enoughFuel exampleGraph) (by decide)
      (le_refl _)).1,
   (ConcurrentBFSQueries_correct exampleGraph [0, 3] 2 (enoughFuel exampleGraph) (by decide)
      (le_refl _)).2
      [.caller, .worker 0, .caller, .worker 1, .worker 1, .worker 0, .caller, .worker 0,
       .worker 1]
      [(3, [3, 4]), (0, [0, 1, 2, 3, 4])] (by decide)⟩

/-- When an adjacency list names a neighbour twice, the search visits that
neighbour twice: the test before `append` looks at the queue and at the nodes
visited, not at the nodes already chosen in the same iteration. -/
theorem search_repeats_nodes :
    search [(0, [1, 1]), (1, [2, 2, 0])] 7 0
      = some { Initial := 0, Path := [0, 1, 1, 2, 2] } := by
  decide

end Challenge4
